import Mathlib

/-!
Verification of the GMM (Generalized Multiparticle Mie) computational core of
py_gmm, as exercised by the Au dimer scattering notebook.

The numerically exact parts of the core — geometry validation, interaction
cutoff policy, quasi-static selection, system assembly, the direct linear
solve, the cross-section evaluator with its energy-conservation gate, the
far-field grid evaluator, and the shape/atomicity of the solve boundary —
are embedded as computable Lean definitions over exact rational complex
arithmetic.  The transcendental special-function kernels (Mie coefficients
from Riccati-Bessel recursions, addition-theorem translation entries from
spherical Hankel functions and Wigner couplings, plane-wave incident
expansion phases, vector spherical harmonics at infinity) have no exact
rational representation; following the specification, which leaves their
analytic form open, they enter the model as an explicit bundle of kernel
parameters over which all theorems quantify.
-/

unseal Rat.add Rat.mul Rat.inv Rat.sub Rat.ofScientific

set_option maxRecDepth 100000

namespace PyGmm

/-- Complex numbers with exact rational components, the scalar type of the
embedded GMM core. -/
structure GComplex where
  re : ℚ
  im : ℚ
  deriving DecidableEq

namespace GComplex

instance : Zero GComplex := ⟨⟨0, 0⟩⟩

instance : One GComplex := ⟨⟨1, 0⟩⟩

instance : Add GComplex := ⟨fun a b => ⟨a.re + b.re, a.im + b.im⟩⟩

instance : Neg GComplex := ⟨fun a => ⟨-a.re, -a.im⟩⟩

instance : Sub GComplex := ⟨fun a b => ⟨a.re - b.re, a.im - b.im⟩⟩

instance : Mul GComplex :=
  ⟨fun a b => ⟨a.re * b.re - a.im * b.im, a.re * b.im + a.im * b.re⟩⟩

/-- Squared modulus of a rational complex number. -/
def normSq (a : GComplex) : ℚ := a.re * a.re + a.im * a.im

instance : Inv GComplex := ⟨fun a => ⟨a.re / normSq a, -a.im / normSq a⟩⟩

instance : Div GComplex := ⟨fun a b => a * b⁻¹⟩

@[simp] theorem add_re (a b : GComplex) : (a + b).re = a.re + b.re := rfl

@[simp] theorem add_im (a b : GComplex) : (a + b).im = a.im + b.im := rfl

@[simp] theorem mul_re (a b : GComplex) : (a * b).re = a.re * b.re - a.im * b.im := rfl

@[simp] theorem mul_im (a b : GComplex) : (a * b).im = a.re * b.im + a.im * b.re := rfl

@[simp] theorem neg_re (a : GComplex) : (-a).re = -a.re := rfl

@[simp] theorem neg_im (a : GComplex) : (-a).im = -a.im := rfl

@[simp] theorem sub_re (a b : GComplex) : (a - b).re = a.re - b.re := rfl

@[simp] theorem sub_im (a b : GComplex) : (a - b).im = a.im - b.im := rfl

@[simp] theorem zero_re : (0 : GComplex).re = 0 := rfl

@[simp] theorem zero_im : (0 : GComplex).im = 0 := rfl

@[simp] theorem one_re : (1 : GComplex).re = 1 := rfl

@[simp] theorem one_im : (1 : GComplex).im = 0 := rfl

theorem ext2 {a b : GComplex} (h1 : a.re = b.re) (h2 : a.im = b.im) : a = b := by
  cases a; cases b; simp_all

instance : CommRing GComplex where
  add_assoc a b c := by apply ext2 <;> simp <;> ring
  zero_add a := by apply ext2 <;> simp
  add_zero a := by apply ext2 <;> simp
  add_comm a b := by apply ext2 <;> simp <;> ring
  left_distrib a b c := by apply ext2 <;> simp <;> ring
  right_distrib a b c := by apply ext2 <;> simp <;> ring
  zero_mul a := by apply ext2 <;> simp
  mul_zero a := by apply ext2 <;> simp
  mul_assoc a b c := by apply ext2 <;> simp <;> ring
  one_mul a := by apply ext2 <;> simp
  mul_one a := by apply ext2 <;> simp
  mul_comm a b := by apply ext2 <;> simp <;> ring
  neg_add_cancel a := by apply ext2 <;> simp
  sub_eq_add_neg a b := by apply ext2 <;> simp <;> ring
  nsmul := nsmulRec
  zsmul := zsmulRec

@[simp] theorem normSq_nonneg (a : GComplex) : 0 ≤ normSq a :=
  add_nonneg (mul_self_nonneg _) (mul_self_nonneg _)

theorem eq_zero_of_normSq_eq_zero {a : GComplex} (h : normSq a = 0) : a = 0 := by
  have h1 := (add_eq_zero_iff_of_nonneg (mul_self_nonneg a.re) (mul_self_nonneg a.im)).mp h
  exact ext2 (mul_self_eq_zero.mp h1.1) (mul_self_eq_zero.mp h1.2)

theorem normSq_ne_zero {a : GComplex} (h : a ≠ 0) : normSq a ≠ 0 :=
  fun hn => h (eq_zero_of_normSq_eq_zero hn)

instance : Field GComplex where
  exists_pair_ne := ⟨0, 1, fun h => one_ne_zero (congrArg re h).symm⟩
  mul_inv_cancel a h := by
    have hn := normSq_ne_zero h
    apply ext2 <;> simp [Inv.inv, normSq] at hn ⊢ <;> field_simp <;> ring
  inv_zero := by apply ext2 <;> simp [Inv.inv, normSq]
  qsmul := _
  nnqsmul := _

end GComplex

section LinearSolver

variable {K : Type} [Field K] [DecidableEq K]

/-- Dot product of a matrix row against a solution vector. -/
def dotK (r x : List K) : K := (List.zipWith (fun a b => a * b) r x).sum

/-- A vector solves a system when every row equation is satisfied. -/
def SolvesSys (rows : List (List K × K)) (x : List K) : Prop :=
  ∀ q ∈ rows, dotK q.1 x = q.2

/-- A system is square of size d: d rows, each with d coefficients. -/
def SquareSys (d : ℕ) (rows : List (List K × K)) : Prop :=
  rows.length = d ∧ ∀ q ∈ rows, q.1.length = d

/-- Partial pivoting: select the first row whose leading coefficient is
nonzero, returning it together with the remaining rows. -/
def pickPivot : List (List K × K) → Option ((List K × K) × List (List K × K))
  | [] => none
  | q :: qs =>
    if q.1.headD 0 ≠ 0 then some (q, qs)
    else (pickPivot qs).map (fun pr => (pr.1, q :: pr.2))

/-- One elimination step: subtract the appropriate multiple of the pivot row
from every other row and drop the leading column. -/
def elimStep (p : List K × K) (rest : List (List K × K)) : List (List K × K) :=
  rest.map (fun q =>
    (List.zipWith (fun a b => a - q.1.headD 0 / p.1.headD 0 * b) q.1.tail p.1.tail,
     q.2 - q.1.headD 0 / p.1.headD 0 * p.2))

/-- Direct dense linear solve by Gaussian elimination with partial pivoting
and back-substitution; fails (None) when no nonzero pivot can be found. -/
def gauss : ℕ → List (List K × K) → Option (List K)
  | 0, _ => some []
  | d + 1, rows =>
    (pickPivot rows).bind (fun pr =>
      (gauss d (elimStep pr.1 pr.2)).map (fun xs =>
        (pr.1.2 - dotK pr.1.1.tail xs) / pr.1.1.headD 0 :: xs))

end LinearSolver

/-- Real 3-vectors (sphere positions, in nanometers). -/
abbrev Vec3 := ℚ × ℚ × ℚ

/-- Componentwise difference of two positions: the directed offset vector
between two sphere centers. -/
def vsub (a b : Vec3) : Vec3 := (a.1 - b.1, a.2.1 - b.2.1, a.2.2 - b.2.2)

/-- Squared Euclidean distance between two sphere centers. -/
def sqDist (a b : Vec3) : ℚ :=
  (a.1 - b.1) ^ 2 + (a.2.1 - b.2.1) ^ 2 + (a.2.2 - b.2.2) ^ 2

/-- Error taxonomy of the GMM core, as given by the specification. -/
inductive GmmError where
  | MaterialNotFound
  | WavelengthOutOfRange
  | DegenerateGeometry
  | NumericalInstability
  | SingularSystem
  deriving DecidableEq

/-- Modelled from the spec: the bundle of transcendental special-function
kernels of the GMM core, whose analytic forms (Riccati-Bessel recursions for
Mie coefficients, spherical Hankel functions and Wigner couplings for the
addition-theorem translation entries, plane-wave phases for the incident
expansion, vector spherical harmonics at infinity for the far field) are not
exactly representable over the rationals and are left open by the
specification; every theorem below quantifies over this bundle.  Fields:
mie takes (wavelength, medium index, radius, permittivity, flat multipole
index); transRet and transQS take (wavelength, medium index, offset vector,
row index, column index) and are the full retarded and the quasi-static
(near-field, non-retarded) translation-entry kernels; incident takes
(wavelength, medium index, three Euler angles, sphere position, flat index);
internalRatio maps a scattered-field coefficient to the internal-field
(dmn, cmn) family member at the same index; vshTheta and vshPhi take
(flat index, theta, phi, polarization reference angle); farPhase takes
(wavenumber, sphere position, theta, phi) and phase-references a sphere to
the common far-field origin; quadW is the angular quadrature weight. -/
structure Engines where
  mie : ℚ → ℚ → ℚ → GComplex → ℕ → GComplex
  transRet : ℚ → ℚ → Vec3 → ℕ → ℕ → GComplex
  transQS : ℚ → ℚ → Vec3 → ℕ → ℕ → GComplex
  incident : ℚ → ℚ → ℚ → ℚ → ℚ → Vec3 → ℕ → GComplex
  internalRatio : ℚ → ℚ → ℚ → GComplex → ℕ → GComplex
  vshTheta : ℕ → ℚ → ℚ → ℚ → GComplex
  vshPhi : ℕ → ℚ → ℚ → ℚ → GComplex
  farPhase : ℚ → Vec3 → ℚ → ℚ → GComplex
  quadW : ℚ → ℚ

/-- Number of multipole coefficients per sphere: two families (TE/TM), each
over degrees n = 1..n_stop and orders m = -n..n, giving 2·n_stop·(n_stop+2)
entries; this is also the per-sphere block size of the linear system. -/
def dim1 (n_stop : ℕ) : ℕ := 2 * n_stop * (n_stop + 2)

/-- Modelled from the spec: one entry of an off-diagonal coupling block of
the interaction system (missing core function expansion_coefficients of
py_gmm.gmm_py.gmm_f2py_module).  If the InteractionPolicy cutoff is
positive and the center separation of the pair exceeds cutoff times the
combined radius, the pair receives a zero-coupling block (an approximation,
not an error); otherwise the entry is minus the row sphere's Mie
coefficient times the translation entry, with the quasi-static flag
selecting the translation kernel per entry. -/
def couplingEntry (E : Engines) (qs_flag : Bool) (f_int n_matrix wl : ℚ)
    (pA pB : Vec3) (rA rB : ℚ) (eA : GComplex) (r c : ℕ) : GComplex :=
  if 0 < f_int ∧ (f_int * (rA + rB)) ^ 2 < sqDist pA pB then 0
  else
    -(E.mie wl n_matrix rA eA r *
      (if qs_flag then E.transQS wl n_matrix (vsub pB pA) r c
       else E.transRet wl n_matrix (vsub pB pA) r c))

/-- One scalar entry of the assembled block matrix: identity on the diagonal
blocks, coupling entries off the diagonal. -/
def sysEntry (E : Engines) (qs_flag : Bool) (f_int n_matrix wl : ℚ)
    (m_xyz : List Vec3) (v_r : List ℚ) (m_eps : List GComplex)
    (i j r c : ℕ) : GComplex :=
  if i = j then (if r = c then 1 else 0)
  else
    couplingEntry E qs_flag f_int n_matrix wl (m_xyz.getD i (0, 0, 0))
      (m_xyz.getD j (0, 0, 0)) (v_r.getD i 0) (v_r.getD j 0)
      (m_eps.getD i 0) r c

/-- One entry of the right-hand side: the row sphere's Mie coefficient times
the incident plane-wave expansion coefficient in that sphere's local frame. -/
def rhsEntry (E : Engines) (n_matrix wl alpha beta gamma : ℚ)
    (m_xyz : List Vec3) (v_r : List ℚ) (m_eps : List GComplex)
    (i r : ℕ) : GComplex :=
  E.mie wl n_matrix (v_r.getD i 0) (m_eps.getD i 0) r *
    E.incident wl n_matrix alpha beta gamma (m_xyz.getD i (0, 0, 0)) r

/-- Modelled from the spec: the Interaction System Assembler builds the
dense complex block system, one block row per sphere, each scalar row
carrying the concatenated blocks over all column spheres plus the incident
right-hand side. -/
def assembleRows (E : Engines) (qs_flag : Bool) (f_int n_matrix wl : ℚ)
    (alpha beta gamma : ℚ) (m_xyz : List Vec3) (v_r : List ℚ)
    (m_eps : List GComplex) (n_stop : ℕ) : List (List GComplex × GComplex) :=
  (List.range m_xyz.length).flatMap (fun i =>
    (List.range (dim1 n_stop)).map (fun r =>
      ((List.range m_xyz.length).flatMap (fun j =>
        (List.range (dim1 n_stop)).map (fun c =>
          sysEntry E qs_flag f_int n_matrix wl m_xyz v_r m_eps i j r c)),
       rhsEntry E n_matrix wl alpha beta gamma m_xyz v_r m_eps i r)))

/-- Coupling entry with an explicitly chosen translation kernel, used to
state that the quasi-static selector is applied uniformly. -/
def couplingEntryWith (E : Engines) (t : ℚ → ℚ → Vec3 → ℕ → ℕ → GComplex)
    (f_int n_matrix wl : ℚ) (pA pB : Vec3) (rA rB : ℚ) (eA : GComplex)
    (r c : ℕ) : GComplex :=
  if 0 < f_int ∧ (f_int * (rA + rB)) ^ 2 < sqDist pA pB then 0
  else -(E.mie wl n_matrix rA eA r * t wl n_matrix (vsub pB pA) r c)

/-- System entry with an explicitly chosen translation kernel. -/
def sysEntryWith (E : Engines) (t : ℚ → ℚ → Vec3 → ℕ → ℕ → GComplex)
    (f_int n_matrix wl : ℚ) (m_xyz : List Vec3) (v_r : List ℚ)
    (m_eps : List GComplex) (i j r c : ℕ) : GComplex :=
  if i = j then (if r = c then 1 else 0)
  else
    couplingEntryWith E t f_int n_matrix wl (m_xyz.getD i (0, 0, 0))
      (m_xyz.getD j (0, 0, 0)) (v_r.getD i 0) (v_r.getD j 0)
      (m_eps.getD i 0) r c

/-- Assembly with one translation kernel applied uniformly to every sphere
pair. -/
def assembleRowsWith (E : Engines) (t : ℚ → ℚ → Vec3 → ℕ → ℕ → GComplex)
    (f_int n_matrix wl : ℚ) (alpha beta gamma : ℚ) (m_xyz : List Vec3)
    (v_r : List ℚ) (m_eps : List GComplex) (n_stop : ℕ) :
    List (List GComplex × GComplex) :=
  (List.range m_xyz.length).flatMap (fun i =>
    (List.range (dim1 n_stop)).map (fun r =>
      ((List.range m_xyz.length).flatMap (fun j =>
        (List.range (dim1 n_stop)).map (fun c =>
          sysEntryWith E t f_int n_matrix wl m_xyz v_r m_eps i j r c)),
       rhsEntry E n_matrix wl alpha beta gamma m_xyz v_r m_eps i r)))

/-- Mirror image of a position through the origin. -/
def vneg (a : Vec3) : Vec3 := (-a.1, -a.2.1, -a.2.2)

/-- Exchange of the two length-n halves of a flat vector or matrix row,
realizing the exchange of the two spheres of a dimer on the linear
system. -/
def swapHalves {α : Type} (n : ℕ) (l : List α) : List α := l.drop n ++ l.take n

/-- One row of an identity diagonal block. -/
def identBlockRow (d r : ℕ) : List GComplex :=
  (List.range d).map (fun c => if r = c then 1 else 0)

/-- One row of the coupling block from sphere B onto sphere A. -/
def coupBlockRow (E : Engines) (qs_flag : Bool) (f_int n_matrix wl : ℚ)
    (qA qB : Vec3) (rA rB : ℚ) (eA : GComplex) (d r : ℕ) : List GComplex :=
  (List.range d).map (fun c =>
    couplingEntry E qs_flag f_int n_matrix wl qA qB rA rB eA r c)

/-- Block rows of the first sphere of a dimer: identity diagonal block
followed by the coupling block, with the incident right-hand side. -/
def dimerRowsA (E : Engines) (qs_flag : Bool)
    (f_int n_matrix wl alpha beta gamma : ℚ) (qA qB : Vec3) (rA rB : ℚ)
    (eA : GComplex) (d : ℕ) : List (List GComplex × GComplex) :=
  (List.range d).map (fun r =>
    (identBlockRow d r ++ coupBlockRow E qs_flag f_int n_matrix wl qA qB rA rB
       eA d r,
     E.mie wl n_matrix rA eA r * E.incident wl n_matrix alpha beta gamma qA r))

/-- Block rows of the second sphere of a dimer: coupling block followed by
the identity diagonal block, with the incident right-hand side. -/
def dimerRowsB (E : Engines) (qs_flag : Bool)
    (f_int n_matrix wl alpha beta gamma : ℚ) (qA qB : Vec3) (rA rB : ℚ)
    (eB : GComplex) (d : ℕ) : List (List GComplex × GComplex) :=
  (List.range d).map (fun r =>
    (coupBlockRow E qs_flag f_int n_matrix wl qB qA rB rA eB d r ++
       identBlockRow d r,
     E.mie wl n_matrix rB eB r * E.incident wl n_matrix alpha beta gamma qB r))

/-- Two distinct sphere indices share the same center (zero offset, for
which the vector translation is undefined). -/
def degenerateGeometry (m_xyz : List Vec3) : Prop :=
  ∃ i ∈ List.range m_xyz.length, ∃ j ∈ List.range m_xyz.length,
    i ≠ j ∧ m_xyz.getD i (0, 0, 0) = m_xyz.getD j (0, 0, 0)

instance (m_xyz : List Vec3) : Decidable (degenerateGeometry m_xyz) := by
  unfold degenerateGeometry
  infer_instance

/-- Per-sphere extinction cross-section: optical-theorem sum of the real
parts of the sphere's scattered coefficients. -/
def cextSphere (coeffs : List GComplex) : ℚ := (coeffs.map GComplex.re).sum

/-- Per-sphere scattering cross-section: sum of the squared magnitudes of
the sphere's scattered coefficients. -/
def cscaSphere (coeffs : List GComplex) : ℚ := (coeffs.map GComplex.normSq).sum

/-- Per-sphere absorption cross-section: extinction minus scattering. -/
def cabsSphere (coeffs : List GComplex) : ℚ := cextSphere coeffs - cscaSphere coeffs

/-- Slice of the flat solution vector holding sphere i's scattered
coefficients. -/
def sphereSlice (x : List GComplex) (d1 i : ℕ) : List GComplex :=
  (List.range d1).map (fun r => x.getD (i * d1 + r) 0)

/-- Per-sphere scattered coefficient arrays extracted from the flat solution
vector. -/
def scatteredCoeffs (x : List GComplex) (ns d1 : ℕ) : List (List GComplex) :=
  (List.range ns).map (fun i => sphereSlice x d1 i)

/-- Energy-conservation gate of the Cross-Section Evaluator: every sphere
must satisfy scattering at most extinction; a violation is reported (it
signals an upstream truncation or solver error), never corrected silently. -/
def energyOk (scat : List (List GComplex)) : Prop :=
  ∀ s ∈ scat, cscaSphere s ≤ cextSphere s

instance (scat : List (List GComplex)) : Decidable (energyOk scat) := by
  unfold energyOk
  infer_instance

/-- Sphere i's two-column coefficient array: column 0 the scattered-field
(amn, bmn) coefficients from the solved system, column 1 the internal-field
(dmn, cmn) coefficients obtained from them by the internal-field kernel. -/
def spherePairList (E : Engines) (wl n_matrix rA : ℚ) (eA : GComplex)
    (x : List GComplex) (d1 i : ℕ) : List (GComplex × GComplex) :=
  (List.range d1).map (fun r =>
    (x.getD (i * d1 + r) 0,
     E.internalRatio wl n_matrix rA eA r * x.getD (i * d1 + r) 0))

/-- Assemble-and-solve stage of the GMM core: build the interaction system
and solve it directly; None signals a numerically singular system. -/
def solveStage (E : Engines) (m_xyz : List Vec3) (v_r : List ℚ)
    (m_eps : List GComplex) (f_int n_matrix wl alpha beta gamma : ℚ)
    (n_stop : ℕ) (qs_flag : Bool) : Option (List GComplex) :=
  gauss (m_xyz.length * dim1 n_stop)
    (assembleRows E qs_flag f_int n_matrix wl alpha beta gamma m_xyz v_r m_eps n_stop)

/-- Modelled from the spec: the solve request boundary of the GMM core
(missing core function expansion_coefficients of
py_gmm.gmm_py.gmm_f2py_module), taking sphere positions, radii, per-sphere
complex permittivity, interaction cutoff, medium index, wavelength, Euler
incidence angles, expansion order and quasi-static flag, and returning the
per-sphere two-column coefficient arrays followed by the per-sphere
extinction, scattering and absorption cross-sections; the degenerate
geometry guard of the Vector Translation Engine is hoisted in front of
assembly, and the Cross-Section Evaluator's energy gate rejects violating
solutions. -/
def expansion_coefficients (E : Engines) (m_xyz : List Vec3) (v_r : List ℚ)
    (m_eps : List GComplex) (f_int n_matrix wl alpha beta gamma : ℚ)
    (n_stop : ℕ) (qs_flag : Bool) :
    Except GmmError
      (List (List (GComplex × GComplex)) × List ℚ × List ℚ × List ℚ) :=
  if degenerateGeometry m_xyz then .error .DegenerateGeometry
  else
    match solveStage E m_xyz v_r m_eps f_int n_matrix wl alpha beta gamma n_stop qs_flag with
    | none => .error .SingularSystem
    | some x =>
      if energyOk (scatteredCoeffs x m_xyz.length (dim1 n_stop)) then
        .ok ((List.range m_xyz.length).map (fun i =>
               spherePairList E wl n_matrix (v_r.getD i 0) (m_eps.getD i 0) x
                 (dim1 n_stop) i),
             (scatteredCoeffs x m_xyz.length (dim1 n_stop)).map cextSphere,
             (scatteredCoeffs x m_xyz.length (dim1 n_stop)).map cscaSphere,
             (scatteredCoeffs x m_xyz.length (dim1 n_stop)).map cabsSphere)
      else .error .NumericalInstability

/-- Scattered-field solution of the Single-Sphere Mie Engine: the Mie
coefficient at each index applied to the incident expansion coefficient. -/
def mieSingleSolve (E : Engines) (wl n_matrix alpha beta gamma : ℚ)
    (p0 : Vec3) (r0 : ℚ) (e0 : GComplex) (n_stop : ℕ) : List GComplex :=
  (List.range (dim1 n_stop)).map (fun r =>
    E.mie wl n_matrix r0 e0 r *
      E.incident wl n_matrix alpha beta gamma p0 r)

/-- One sample of the far-field grid: observation angles, the two complex
amplitude components, and the resulting intensity. -/
structure FarEntry where
  theta : ℚ
  phi : ℚ
  eTheta : GComplex
  ePhi : GComplex
  intensity : ℚ
  deriving DecidableEq

/-- Uniform angular grid point number k of n over the closed-open range
from lo towards hi. -/
def gridAngle (lo hi : ℚ) (n k : ℕ) : ℚ := lo + (hi - lo) * k / n

/-- Theta component of the coherent far-field amplitude: the multipole
coefficients of every sphere weighted by the vector spherical harmonics
evaluated at infinity, each sphere phase-referenced to the common origin. -/
def farAmpTheta (E : Engines) (k pol : ℚ) (coeffs : List GComplex)
    (m_xyz : List Vec3) (d1 : ℕ) (th ph : ℚ) : GComplex :=
  ((List.range m_xyz.length).map (fun i =>
    E.farPhase k (m_xyz.getD i (0, 0, 0)) th ph *
      ((List.range d1).map (fun r =>
        coeffs.getD (i * d1 + r) 0 * E.vshTheta r th ph pol)).sum)).sum

/-- Phi component of the coherent far-field amplitude. -/
def farAmpPhi (E : Engines) (k pol : ℚ) (coeffs : List GComplex)
    (m_xyz : List Vec3) (d1 : ℕ) (th ph : ℚ) : GComplex :=
  ((List.range m_xyz.length).map (fun i =>
    E.farPhase k (m_xyz.getD i (0, 0, 0)) th ph *
      ((List.range d1).map (fun r =>
        coeffs.getD (i * d1 + r) 0 * E.vshPhi r th ph pol)).sum)).sum

/-- Far-field sample at one observation angle pair: both amplitude
components and the intensity as the sum of their squared magnitudes. -/
def farEntryAt (E : Engines) (k pol : ℚ) (coeffs : List GComplex)
    (m_xyz : List Vec3) (d1 : ℕ) (th ph : ℚ) : FarEntry :=
  ⟨th, ph, farAmpTheta E k pol coeffs m_xyz d1 th ph,
   farAmpPhi E k pol coeffs m_xyz d1 th ph,
   GComplex.normSq (farAmpTheta E k pol coeffs m_xyz d1 th ph) +
     GComplex.normSq (farAmpPhi E k pol coeffs m_xyz d1 th ph)⟩

/-- Quadrature contribution of one far-field sample: quadrature weight at
its theta times the two angular cell sizes times the intensity. -/
def cellPower (E : Engines) (th_lo th_hi : ℚ) (n_theta : ℕ)
    (ph_lo ph_hi : ℚ) (n_phi : ℕ) (en : FarEntry) : ℚ :=
  E.quadW en.theta * ((th_hi - th_lo) / n_theta) * ((ph_hi - ph_lo) / n_phi) *
    en.intensity

/-- Total scattered power accumulated over a far-field grid by the angular
quadrature. -/
def totalPower (E : Engines) (th_lo th_hi : ℚ) (n_theta : ℕ)
    (ph_lo ph_hi : ℚ) (n_phi : ℕ) (grid : List (List FarEntry)) : ℚ :=
  (grid.map (fun row =>
    (row.map (cellPower E th_lo th_hi n_theta ph_lo ph_hi n_phi)).sum)).sum

/-- Every second element of a list, used for the coarsened quadrature that
drives the error estimate. -/
def everySecond {α : Type} : List α → List α
  | [] => []
  | [a] => [a]
  | a :: _ :: t => a :: everySecond t

/-- Modelled from the spec: the Far-Field Evaluator (missing core function
efar of py_gmm.gmm_py.gmm_f2py_module).  Inputs: wavenumber, expansion
order, theta range and count, phi range and count, polarization reference
angle, the flat scattered coefficient vector, and the sphere positions for
phase referencing.  Output: the theta-by-phi grid of far-field samples,
the accumulated total scattered power, and a numerical error estimate for
the angular integration obtained by comparing the quadrature against the
coarsened one using every second theta row. -/
def efar (E : Engines) (k : ℚ) (n_stop : ℕ) (th_lo th_hi : ℚ) (n_theta : ℕ)
    (ph_lo ph_hi : ℚ) (n_phi : ℕ) (pol : ℚ) (v_amnbmn : List GComplex)
    (m_xyz : List Vec3) : List (List FarEntry) × ℚ × ℚ :=
  let grid := (List.range n_theta).map (fun it =>
    (List.range n_phi).map (fun ip =>
      farEntryAt E k pol v_amnbmn m_xyz (dim1 n_stop)
        (gridAngle th_lo th_hi n_theta it) (gridAngle ph_lo ph_hi n_phi ip)))
  let tot := totalPower E th_lo th_hi n_theta ph_lo ph_hi n_phi grid
  (grid, tot,
   |tot - 2 * totalPower E th_lo th_hi n_theta ph_lo ph_hi n_phi
      (everySecond grid)|)

instance {ε α : Type} [DecidableEq ε] [DecidableEq α] : DecidableEq (Except ε α) :=
  fun a b =>
    match a, b with
    | .error e, .error f =>
      if h : e = f then .isTrue (by rw [h]) else .isFalse (fun hc => h (by cases hc; rfl))
    | .error _, .ok _ => .isFalse (fun hc => Except.noConfusion hc)
    | .ok _, .error _ => .isFalse (fun hc => Except.noConfusion hc)
    | .ok u, .ok v =>
      if h : u = v then .isTrue (by rw [h]) else .isFalse (fun hc => h (by cases hc; rfl))

/-- Concrete kernel bundle used to evaluate the embedded pipeline on
explicit inputs: constant Mie and incident kernels, vanishing translation
kernels. -/
def wEngine : Engines where
  mie := fun _ _ _ _ _ => ⟨1/2, 0⟩
  transRet := fun _ _ _ _ _ => 0
  transQS := fun _ _ _ _ _ => 0
  incident := fun _ _ _ _ _ _ _ => ⟨1/2, 0⟩
  internalRatio := fun _ _ _ _ _ => ⟨1/2, 0⟩
  vshTheta := fun _ _ _ _ => ⟨1, 0⟩
  vshPhi := fun _ _ _ _ => 0
  farPhase := fun _ _ _ _ => ⟨1, 0⟩
  quadW := fun _ => 1

/-- Variant of the concrete kernel bundle differing only in the
internal-field kernel, used to exhibit that the far field ignores the
internal column. -/
def wEngine2 : Engines := { wEngine with internalRatio := fun _ _ _ _ _ => 0 }

/-- Modelled from the notebook's far-field cell: run the solve, extract
column 0 of the coefficient output (the scattered amn, bmn family), and
hand it to the far-field evaluator together with the sphere positions. -/
def farFieldJob (E : Engines) (m_xyz : List Vec3) (v_r : List ℚ)
    (m_eps : List GComplex) (f_int n_matrix wl alpha beta gamma : ℚ)
    (n_stop : ℕ) (qs_flag : Bool) (k : ℚ) (th_lo th_hi : ℚ) (n_theta : ℕ)
    (ph_lo ph_hi : ℚ) (n_phi : ℕ) (pol : ℚ) :
    Except GmmError (List (List FarEntry) × ℚ × ℚ) :=
  (expansion_coefficients E m_xyz v_r m_eps f_int n_matrix wl alpha beta gamma
      n_stop qs_flag).map (fun out =>
    efar E k n_stop th_lo th_hi n_theta ph_lo ph_hi n_phi pol
      ((out.1.map (fun s => s.map Prod.fst)).flatten) m_xyz)


section LinearSolverLemmas

variable {K : Type} [Field K] [DecidableEq K]

@[simp] theorem dotK_nil_left (x : List K) : dotK ([] : List K) x = 0 := rfl

@[simp] theorem dotK_nil_right (r : List K) : dotK r ([] : List K) = 0 := by
  cases r <;> rfl

@[simp] theorem dotK_cons (a : K) (r : List K) (b : K) (x : List K) :
    dotK (a :: r) (b :: x) = a * b + dotK r x := rfl

theorem dotK_append {a c : List K} (b d : List K) (h : a.length = c.length) :
    dotK (a ++ b) (c ++ d) = dotK a c + dotK b d := by
  induction a generalizing c with
  | nil => cases c with
    | nil => simp
    | cons c0 ct => simp at h
  | cons a0 at' ih => cases c with
    | nil => simp at h
    | cons c0 ct =>
      simp only [List.cons_append, dotK_cons]
      rw [ih (show at'.length = ct.length from by simpa using h)]
      ring

theorem dotK_elim_row {u v : List K} (c : K) (x : List K) (h : u.length = v.length) :
    dotK (List.zipWith (fun a b => a - c * b) u v) x = dotK u x - c * dotK v x := by
  induction u generalizing v x with
  | nil =>
    cases v with
    | nil => simp
    | cons v0 vt => simp at h
  | cons u0 ut ih =>
    cases v with
    | nil => simp at h
    | cons v0 vt =>
      cases x with
      | nil => simp
      | cons x0 xt =>
        simp only [List.zipWith_cons_cons, dotK_cons]
        rw [ih xt (show ut.length = vt.length from by simpa using h)]
        ring

theorem pickPivot_perm {l : List (List K × K)} {p : List K × K}
    {rest : List (List K × K)} (h : pickPivot l = some (p, rest)) :
    l.Perm (p :: rest) := by
  induction l generalizing p rest with
  | nil => simp [pickPivot] at h
  | cons q qs ih =>
    simp only [pickPivot] at h
    split at h
    next hq =>
      obtain ⟨rfl, rfl⟩ : q = p ∧ qs = rest := by simpa using h
      exact List.Perm.refl _
    next hq =>
      rw [Option.map_eq_some'] at h
      obtain ⟨⟨p2, r2⟩, hpk, heq⟩ := h
      obtain ⟨rfl, rfl⟩ : p2 = p ∧ q :: r2 = rest := by simpa using heq
      exact ((ih hpk).cons q).trans (List.Perm.swap _ _ _)

theorem pickPivot_head {l : List (List K × K)} {p : List K × K}
    {rest : List (List K × K)} (h : pickPivot l = some (p, rest)) :
    p.1.headD 0 ≠ 0 := by
  induction l generalizing p rest with
  | nil => simp [pickPivot] at h
  | cons q qs ih =>
    simp only [pickPivot] at h
    split at h
    next hq =>
      obtain ⟨rfl, rfl⟩ : q = p ∧ qs = rest := by simpa using h
      exact hq
    next hq =>
      rw [Option.map_eq_some'] at h
      obtain ⟨⟨p2, r2⟩, hpk, heq⟩ := h
      obtain ⟨rfl, rfl⟩ : p2 = p ∧ q :: r2 = rest := by simpa using heq
      exact ih hpk

theorem pickPivot_none {l : List (List K × K)} (h : pickPivot l = none) :
    ∀ q ∈ l, q.1.headD 0 = 0 := by
  induction l with
  | nil => intro q hq; simp at hq
  | cons q qs ih =>
    simp only [pickPivot] at h
    split at h
    next hq => simp at h
    next hq =>
      rw [Option.map_eq_none'] at h
      intro r hr
      rcases List.mem_cons.mp hr with rfl | hr2
      · exact not_not.mp hq
      · exact ih h r hr2

theorem solvesSys_perm {rows rows2 : List (List K × K)} {x : List K}
    (hp : rows.Perm rows2) : SolvesSys rows x ↔ SolvesSys rows2 x := by
  constructor <;> intro hs q hq
  · exact hs q (hp.mem_iff.mpr hq)
  · exact hs q (hp.mem_iff.mp hq)

theorem elimStep_square {d : ℕ} {p : List K × K} {rest : List (List K × K)}
    (hp : p.1.length = d + 1) (hlen : rest.length = d)
    (hr : ∀ q ∈ rest, q.1.length = d + 1) :
    SquareSys d (elimStep p rest) := by
  constructor
  · simp [elimStep, hlen]
  · intro q hq
    simp only [elimStep, List.mem_map] at hq
    obtain ⟨q0, hq0, rfl⟩ := hq
    simp [List.length_zipWith, List.length_tail, hr q0 hq0, hp]

theorem pickPivot_square {d : ℕ} {rows : List (List K × K)} {p : List K × K}
    {rest : List (List K × K)} (hpk : pickPivot rows = some (p, rest))
    (hsq : SquareSys (d + 1) rows) :
    p.1.length = d + 1 ∧ rest.length = d ∧ ∀ q ∈ rest, q.1.length = d + 1 := by
  have hperm := pickPivot_perm hpk
  have hp : p.1.length = d + 1 :=
    hsq.2 p (hperm.mem_iff.mpr (List.mem_cons_self p rest))
  have hrest : rest.length = d := by
    have := hperm.length_eq
    rw [hsq.1] at this
    simpa using this.symm
  exact ⟨hp, hrest, fun q hq =>
    hsq.2 q (hperm.mem_iff.mpr (List.mem_cons_of_mem p hq))⟩

theorem solves_level_iff {d : ℕ} {p : List K × K} {rest : List (List K × K)}
    (hp0 : p.1.headD 0 ≠ 0) (hp : p.1.length = d + 1)
    (hr : ∀ q ∈ rest, q.1.length = d + 1) (y0 : K) (ys : List K) :
    SolvesSys (p :: rest) (y0 :: ys) ↔
      (p.1.headD 0 * y0 + dotK p.1.tail ys = p.2 ∧ SolvesSys (elimStep p rest) ys) := by
  obtain ⟨pp0, ppt, hpp⟩ := List.exists_cons_of_ne_nil
    (show p.1 ≠ [] from fun hn => by rw [hn] at hp; simp at hp)
  have hppt : ppt.length = d := by
    have := hp
    rw [hpp] at this
    simpa using this
  rw [SolvesSys, List.forall_mem_cons, hpp, List.headD_cons, List.tail_cons,
    dotK_cons]
  apply and_congr_right
  intro hpiv
  simp only [SolvesSys, elimStep, List.forall_mem_map]
  apply forall_congr'
  intro q
  apply forall_congr'
  intro hq
  obtain ⟨qq0, qqt, hqq⟩ := List.exists_cons_of_ne_nil
    (show q.1 ≠ [] from fun hn => by have := hr q hq; rw [hn] at this; simp at this)
  have hqqt : qqt.length = d := by
    have := hr q hq
    rw [hqq] at this
    simpa using this
  rw [hpp, hqq]
  simp only [List.headD_cons, List.tail_cons, dotK_cons]
  rw [dotK_elim_row (qq0 / pp0) ys (hqqt.trans hppt.symm)]
  have hp0b : pp0 ≠ 0 := by
    rw [hpp] at hp0
    simpa using hp0
  have hc : qq0 / pp0 * pp0 = qq0 := div_mul_cancel₀ qq0 hp0b
  constructor
  · intro h
    linear_combination h - qq0 / pp0 * hpiv + y0 * hc
  · intro h
    linear_combination h + qq0 / pp0 * hpiv - y0 * hc

theorem gauss_some_char {d : ℕ} {rows : List (List K × K)} {x : List K}
    (hg : gauss d rows = some x) (hsq : SquareSys d rows) :
    x.length = d ∧ ∀ y : List K, y.length = d → (SolvesSys rows y ↔ y = x) := by
  induction d generalizing rows x with
  | zero =>
    have hx : x = [] := by simpa [gauss] using hg.symm
    subst hx
    refine ⟨rfl, fun y hy => ?_⟩
    have hy0 : y = [] := List.length_eq_zero.mp hy
    subst hy0
    have hrows : rows = [] := List.length_eq_zero.mp hsq.1
    subst hrows
    simp [SolvesSys]
  | succ d ih =>
    rw [gauss, Option.bind_eq_some] at hg
    obtain ⟨⟨p, rest⟩, hpk, hmap⟩ := hg
    rw [Option.map_eq_some'] at hmap
    obtain ⟨xs, hgs0, hx0⟩ := hmap
    have hgs : gauss d (elimStep p rest) = some xs := hgs0
    have hx : (p.2 - dotK p.1.tail xs) / p.1.headD 0 :: xs = x := hx0
    obtain ⟨hp, hrest, hr⟩ := pickPivot_square hpk hsq
    have hp0 := pickPivot_head hpk
    have hperm := pickPivot_perm hpk
    have hsq2 := elimStep_square hp hrest hr
    obtain ⟨hxsl, hchar⟩ := ih hgs hsq2
    subst hx
    refine ⟨by simp [hxsl], fun y hy => ?_⟩
    cases y with
    | nil => simp at hy
    | cons y0 ys =>
      have hysl : ys.length = d := by simpa using hy
      rw [solvesSys_perm hperm, solves_level_iff hp0 hp hr y0 ys, hchar ys hysl]
      constructor
      · intro h
        obtain ⟨hpiv2, rfl⟩ := h
        have hy0 : y0 = (p.2 - dotK p.1.tail ys) / p.1.headD 0 := by
          rw [eq_div_iff hp0]
          linear_combination hpiv2
        rw [hy0]
      · intro h
        have h1 : y0 = (p.2 - dotK p.1.tail xs) / p.1.headD 0 := by
          have := congrArg (fun l => l.headD 0) h
          simpa using this
        have h2 : ys = xs := by
          have := congrArg List.tail h
          simpa using this
        refine ⟨?_, h2⟩
        rw [h1, h2, mul_comm, div_mul_cancel₀ _ hp0]
        ring

theorem gauss_none_char {d : ℕ} {rows : List (List K × K)}
    (hg : gauss d rows = none) (hsq : SquareSys d rows) :
    ¬ ∃ x : List K, x.length = d ∧ SolvesSys rows x ∧
        ∀ y : List K, y.length = d → SolvesSys rows y → y = x := by
  induction d generalizing rows with
  | zero => simp [gauss] at hg
  | succ d ih =>
    rintro ⟨x, hxl, hxs, huni⟩
    cases x with
    | nil => simp at hxl
    | cons x0 xs =>
      have hxsl : xs.length = d := by simpa using hxl
      cases hpk : pickPivot rows with
      | none =>
        have hy : SolvesSys rows ((x0 + 1) :: xs) := by
          intro q hq
          have hq0 := pickPivot_none hpk q hq
          obtain ⟨qq0, qqt, hqq⟩ := List.exists_cons_of_ne_nil
            (show q.1 ≠ [] from fun hn => by
              have := hsq.2 q hq; rw [hn] at this; simp at this)
          have hz : qq0 = 0 := by rw [hqq] at hq0; simpa using hq0
          have hbase := hxs q hq
          rw [hqq] at hbase ⊢
          rw [show dotK (qq0 :: qqt) ((x0 + 1) :: xs) = qq0 * (x0 + 1) + dotK qqt xs from rfl,
            hz] at *
          rw [show dotK (0 :: qqt) (x0 :: xs) = 0 * x0 + dotK qqt xs from rfl] at hbase
          linear_combination hbase
        have := huni ((x0 + 1) :: xs) (by simpa using hxl) hy
        have hcontr : x0 + 1 = x0 := by
          have := congrArg (fun l => l.headD 0) this
          simpa using this
        exact one_ne_zero (by linear_combination hcontr)
      | some pr =>
        obtain ⟨p, rest⟩ := pr
        obtain ⟨hp, hrest, hr⟩ := pickPivot_square hpk hsq
        have hp0 := pickPivot_head hpk
        have hperm := pickPivot_perm hpk
        have hsq2 := elimStep_square hp hrest hr
        cases hgs : gauss d (elimStep p rest) with
        | some zs =>
          rw [gauss, hpk] at hg
          simp [hgs] at hg
        | none =>
          apply ih hgs hsq2
          obtain ⟨hpiv, hsolve⟩ :=
            (solves_level_iff hp0 hp hr x0 xs).mp ((solvesSys_perm hperm).mp hxs)
          refine ⟨xs, hxsl, hsolve, fun ys hysl hys => ?_⟩
          have hpivy : p.1.headD 0 * ((p.2 - dotK p.1.tail ys) / p.1.headD 0) +
              dotK p.1.tail ys = p.2 := by
            rw [mul_comm, div_mul_cancel₀ _ hp0]
            ring
          have hyfull : SolvesSys rows
              ((p.2 - dotK p.1.tail ys) / p.1.headD 0 :: ys) :=
            (solvesSys_perm hperm).mpr
              ((solves_level_iff hp0 hp hr _ ys).mpr ⟨hpivy, hys⟩)
          have := huni _ (by simpa using congrArg Nat.succ hysl) hyfull
          have h2 : ys = xs := by
            have := congrArg List.tail this
            simpa using this
          exact h2

theorem gauss_complete {d : ℕ} {rows : List (List K × K)} (hsq : SquareSys d rows)
    (x : List K) (hxl : x.length = d) (hxs : SolvesSys rows x)
    (huni : ∀ y : List K, y.length = d → SolvesSys rows y → y = x) :
    gauss d rows = some x := by
  cases hg : gauss d rows with
  | none => exact absurd ⟨x, hxl, hxs, huni⟩ (gauss_none_char hg hsq)
  | some z =>
    obtain ⟨_, hchar⟩ := gauss_some_char hg hsq
    rw [(hchar x hxl).mp hxs]

theorem gauss_length {d : ℕ} {rows : List (List K × K)} {x : List K}
    (hg : gauss d rows = some x) : x.length = d := by
  induction d generalizing rows x with
  | zero =>
    have hx : x = [] := by simpa [gauss] using hg.symm
    simp [hx]
  | succ d ih =>
    rw [gauss, Option.bind_eq_some] at hg
    obtain ⟨⟨p, rest⟩, hpk, hmap⟩ := hg
    rw [Option.map_eq_some'] at hmap
    obtain ⟨xs, hgs0, hx⟩ := hmap
    have hgs : gauss d (elimStep p rest) = some xs := hgs0
    rw [← hx]
    simp [ih hgs]

end LinearSolverLemmas

theorem getD_map_lt {α β : Type} (f : α → β) (l : List α) (db : β) (da : α)
    {i : ℕ} (h : i < l.length) : (l.map f).getD i db = f (l.getD i da) := by
  induction l generalizing i with
  | nil => simp at h
  | cons a t ih =>
    cases i with
    | zero => simp
    | succ n =>
      simp only [List.map_cons, List.getD_cons_succ]
      exact ih (by simpa using h)

theorem range_map_getD {β : Type} (d : β) :
    ∀ (n : ℕ) (f : ℕ → β) (i : ℕ), i < n → ((List.range n).map f).getD i d = f i := by
  intro n
  induction n with
  | zero => intro f i h; simp at h
  | succ m ih =>
    intro f i h
    rw [List.range_succ_eq_map, List.map_cons, List.map_map]
    cases i with
    | zero => simp
    | succ k =>
      rw [List.getD_cons_succ]
      exact ih (f ∘ Nat.succ) k (by omega)

theorem getD_mem_of_lt {α : Type} (l : List α) (d : α) {i : ℕ} (h : i < l.length) :
    l.getD i d ∈ l := by
  rw [List.getD_eq_getElem l d h]
  exact l.getElem_mem h

theorem list_eq_of_getD {α : Type} (d : α) {l1 l2 : List α}
    (hlen : l1.length = l2.length)
    (h : ∀ i, i < l1.length → l1.getD i d = l2.getD i d) : l1 = l2 := by
  apply List.ext_getElem hlen
  intro i h1 h2
  rw [← List.getD_eq_getElem l1 d h1, ← List.getD_eq_getElem l2 d h2]
  exact h i h1

theorem flatMap_congr_left {α β : Type} {l : List α} {f g : α → List β}
    (h : ∀ a ∈ l, f a = g a) : l.flatMap f = l.flatMap g := by
  induction l with
  | nil => rfl
  | cons a t ih =>
    rw [List.flatMap_cons, List.flatMap_cons, h a (List.mem_cons_self a t),
      ih (fun b hb => h b (List.mem_cons_of_mem a hb))]

theorem csca_nonneg (s : List GComplex) : 0 ≤ cscaSphere s := by
  apply List.sum_nonneg
  intro q hq
  simp only [List.mem_map] at hq
  obtain ⟨a, _, rfl⟩ := hq
  exact GComplex.normSq_nonneg a

theorem dim1_sum (n_stop : ℕ) :
    dim1 n_stop = ((List.range n_stop).map (fun n => 2 * (2 * (n + 1) + 1))).sum := by
  induction n_stop with
  | zero => rfl
  | succ n ih =>
    rw [List.range_succ, List.map_append, List.sum_append, ← ih]
    simp [dim1]
    ring

theorem spherePairList_fst (E : Engines) (wl n_matrix rA : ℚ) (eA : GComplex)
    (x : List GComplex) (d1 i : ℕ) :
    (spherePairList E wl n_matrix rA eA x d1 i).map Prod.fst = sphereSlice x d1 i := by
  simp [spherePairList, sphereSlice, List.map_map]

theorem expansion_ok_inv {E : Engines} {m_xyz : List Vec3} {v_r : List ℚ}
    {m_eps : List GComplex} {f_int n_matrix wl alpha beta gamma : ℚ} {n_stop : ℕ}
    {qs_flag : Bool}
    {out : List (List (GComplex × GComplex)) × List ℚ × List ℚ × List ℚ}
    (hok : expansion_coefficients E m_xyz v_r m_eps f_int n_matrix wl alpha beta
      gamma n_stop qs_flag = .ok out) :
    ¬ degenerateGeometry m_xyz ∧
      ∃ x, solveStage E m_xyz v_r m_eps f_int n_matrix wl alpha beta gamma n_stop
          qs_flag = some x ∧
        energyOk (scatteredCoeffs x m_xyz.length (dim1 n_stop)) ∧
        out = ((List.range m_xyz.length).map (fun i =>
                 spherePairList E wl n_matrix (v_r.getD i 0) (m_eps.getD i 0) x
                   (dim1 n_stop) i),
               (scatteredCoeffs x m_xyz.length (dim1 n_stop)).map cextSphere,
               (scatteredCoeffs x m_xyz.length (dim1 n_stop)).map cscaSphere,
               (scatteredCoeffs x m_xyz.length (dim1 n_stop)).map cabsSphere) := by
  rw [expansion_coefficients] at hok
  split at hok
  · simp at hok
  next hdeg =>
    split at hok
    next hsol => simp at hok
    next x hsol =>
      split at hok
      next hen =>
        refine ⟨hdeg, x, hsol, hen, ?_⟩
        simpa using hok.symm
      next hen => simp at hok

/-- C3: for every input in which two sphere centers coincide (zero offset
between some pair of centers), the solve fails with the DegenerateGeometry
error and returns no coefficient set or cross-sections. -/
theorem c3_coincident_centers_fail (E : Engines) (m_xyz : List Vec3)
    (v_r : List ℚ) (m_eps : List GComplex)
    (f_int n_matrix wl alpha beta gamma : ℚ) (n_stop : ℕ) (qs_flag : Bool)
    (i j : ℕ) (hi : i < m_xyz.length) (hj : j < m_xyz.length) (hij : i ≠ j)
    (hcoin : m_xyz.getD i (0, 0, 0) = m_xyz.getD j (0, 0, 0)) :
    expansion_coefficients E m_xyz v_r m_eps f_int n_matrix wl alpha beta gamma
      n_stop qs_flag = .error .DegenerateGeometry := by
  have hdeg : degenerateGeometry m_xyz :=
    ⟨i, List.mem_range.mpr hi, j, List.mem_range.mpr hj, hij, hcoin⟩
  rw [expansion_coefficients, if_pos hdeg]

/-- Closed instance of C3: two spheres put at the same center make the
solve fail with DegenerateGeometry. -/
theorem c3_coincident_centers_fail_witness :
    expansion_coefficients wEngine [(3, 0, 0), (3, 0, 0)] [2, 2]
      [⟨-2, 1⟩, ⟨-2, 1⟩] 0 1 500 0 0 0 1 false = .error .DegenerateGeometry :=
  c3_coincident_centers_fail wEngine [(3, 0, 0), (3, 0, 0)] [2, 2]
    [⟨-2, 1⟩, ⟨-2, 1⟩] 0 1 500 0 0 0 1 false 0 1 (by decide) (by decide)
    (by decide) (by decide)

/-- C1: for every successful solve, the returned per-sphere cross-sections
satisfy 0 ≤ Csca ≤ Cext and Cabs = Cext − Csca (exactly, in the rational
model), and all three are non-negative. -/
theorem c1_energy_conservation (E : Engines) (m_xyz : List Vec3) (v_r : List ℚ)
    (m_eps : List GComplex) (f_int n_matrix wl alpha beta gamma : ℚ)
    (n_stop : ℕ) (qs_flag : Bool)
    (out : List (List (GComplex × GComplex)) × List ℚ × List ℚ × List ℚ)
    (hok : expansion_coefficients E m_xyz v_r m_eps f_int n_matrix wl alpha beta
      gamma n_stop qs_flag = .ok out)
    (i : ℕ) (hi : i < out.2.1.length) :
    0 ≤ out.2.2.1.getD i 0 ∧ out.2.2.1.getD i 0 ≤ out.2.1.getD i 0 ∧
      out.2.2.2.getD i 0 = out.2.1.getD i 0 - out.2.2.1.getD i 0 ∧
      0 ≤ out.2.1.getD i 0 ∧ 0 ≤ out.2.2.2.getD i 0 := by
  obtain ⟨hdeg, x, hsol, hen, hout⟩ := expansion_ok_inv hok
  subst hout
  simp only [List.length_map] at hi
  have hext := getD_map_lt cextSphere _ (0 : ℚ) ([] : List GComplex) hi
  have hsca := getD_map_lt cscaSphere _ (0 : ℚ) ([] : List GComplex) hi
  have habs := getD_map_lt cabsSphere _ (0 : ℚ) ([] : List GComplex) hi
  simp only [hext, hsca, habs]
  have hmem := getD_mem_of_lt _ ([] : List GComplex) hi
  have h1 := csca_nonneg ((scatteredCoeffs x m_xyz.length (dim1 n_stop)).getD i [])
  have h2 := hen _ hmem
  refine ⟨h1, h2, rfl, le_trans h1 h2, ?_⟩
  simp only [cabsSphere]
  linarith

/-- Closed instance of C1: a successful two-sphere solve satisfies the
energy-conservation inequalities. -/
theorem c1_energy_conservation_witness :
    0 ≤ (([(3:ℚ)/8, 3/8] : List ℚ).getD 0 0) ∧
      (([(3:ℚ)/8, 3/8] : List ℚ).getD 0 0) ≤ (([(3:ℚ)/2, 3/2] : List ℚ).getD 0 0) ∧
      (([(9:ℚ)/8, 9/8] : List ℚ).getD 0 0) =
        (([(3:ℚ)/2, 3/2] : List ℚ).getD 0 0) - (([(3:ℚ)/8, 3/8] : List ℚ).getD 0 0) ∧
      0 ≤ (([(3:ℚ)/2, 3/2] : List ℚ).getD 0 0) ∧
      0 ≤ (([(9:ℚ)/8, 9/8] : List ℚ).getD 0 0) :=
  c1_energy_conservation wEngine [(-5, 0, 0), (5, 0, 0)] [2, 2]
    [⟨-2, 1⟩, ⟨-2, 1⟩] 0 1 500 0 0 0 1 false
    (List.replicate 2 (List.replicate 6 (⟨1/4, 0⟩, ⟨1/8, 0⟩)),
     [3/2, 3/2], [3/8, 3/8], [9/8, 9/8])
    (by decide) 0 (by decide)

/-- C9: the solve is atomic: either a complete coefficient set is produced
(one array per sphere, each covering both families over all degrees
n = 1..n_stop and orders m = -n..n), or the job reports failure with one of
the taxonomy errors; never a partial result. -/
theorem c9_atomic_solve (E : Engines) (m_xyz : List Vec3) (v_r : List ℚ)
    (m_eps : List GComplex) (f_int n_matrix wl alpha beta gamma : ℚ)
    (n_stop : ℕ) (qs_flag : Bool) :
    (∃ out, expansion_coefficients E m_xyz v_r m_eps f_int n_matrix wl alpha beta
        gamma n_stop qs_flag = .ok out ∧
      out.1.length = m_xyz.length ∧
      ∀ c ∈ out.1, c.length = 2 * n_stop * (n_stop + 2) ∧
        c.length = ((List.range n_stop).map (fun n => 2 * (2 * (n + 1) + 1))).sum) ∨
    (∃ e, expansion_coefficients E m_xyz v_r m_eps f_int n_matrix wl alpha beta
        gamma n_stop qs_flag = .error e) := by
  cases hres : expansion_coefficients E m_xyz v_r m_eps f_int n_matrix wl alpha
      beta gamma n_stop qs_flag with
  | error e => exact Or.inr ⟨e, rfl⟩
  | ok out =>
    left
    obtain ⟨hdeg, x, hsol, hen, hout⟩ := expansion_ok_inv hres
    refine ⟨out, rfl, ?_, ?_⟩
    · rw [hout]
      simp
    · intro c hc
      rw [hout] at hc
      simp only [List.mem_map] at hc
      obtain ⟨ii, hii, rfl⟩ := hc
      constructor
      · simp [spherePairList, dim1]
      · rw [← dim1_sum]
        simp [spherePairList]

/-- C6: on every success, the solve request returns the per-sphere
coefficient arrays as the first component, followed by the per-sphere
extinction, scattering and absorption cross-sections of those coefficient
arrays, in that order. -/
theorem c6_solve_request_shape (E : Engines) (m_xyz : List Vec3) (v_r : List ℚ)
    (m_eps : List GComplex) (f_int n_matrix wl alpha beta gamma : ℚ)
    (n_stop : ℕ) (qs_flag : Bool)
    (out : List (List (GComplex × GComplex)) × List ℚ × List ℚ × List ℚ)
    (hok : expansion_coefficients E m_xyz v_r m_eps f_int n_matrix wl alpha beta
      gamma n_stop qs_flag = .ok out) :
    out.1.length = m_xyz.length ∧
      out.2.1 = (out.1.map (fun s => s.map Prod.fst)).map cextSphere ∧
      out.2.2.1 = (out.1.map (fun s => s.map Prod.fst)).map cscaSphere ∧
      out.2.2.2 = (out.1.map (fun s => s.map Prod.fst)).map cabsSphere := by
  obtain ⟨hdeg, x, hsol, hen, hout⟩ := expansion_ok_inv hok
  subst hout
  have hcol : (((List.range m_xyz.length).map (fun i =>
      spherePairList E wl n_matrix (v_r.getD i 0) (m_eps.getD i 0) x
        (dim1 n_stop) i)).map (fun s => s.map Prod.fst)) =
      scatteredCoeffs x m_xyz.length (dim1 n_stop) := by
    rw [List.map_map]
    apply List.map_congr_left
    intro i hi
    exact spherePairList_fst E wl n_matrix (v_r.getD i 0) (m_eps.getD i 0) x
      (dim1 n_stop) i
  refine ⟨by simp, ?_, ?_, ?_⟩ <;> rw [hcol]

/-- Closed instance of C6: the components of a successful two-sphere solve
are the coefficient arrays and their cross-sections in order. -/
theorem c6_solve_request_shape_witness :
    (List.replicate 2 (List.replicate 6 ((⟨1/4, 0⟩ : GComplex), (⟨1/8, 0⟩ : GComplex)))).length = 2 ∧
      ([(3:ℚ)/2, 3/2] : List ℚ) =
        ((List.replicate 2 (List.replicate 6 ((⟨1/4, 0⟩ : GComplex), (⟨1/8, 0⟩ : GComplex)))).map
          (fun s => s.map Prod.fst)).map cextSphere ∧
      ([(3:ℚ)/8, 3/8] : List ℚ) =
        ((List.replicate 2 (List.replicate 6 ((⟨1/4, 0⟩ : GComplex), (⟨1/8, 0⟩ : GComplex)))).map
          (fun s => s.map Prod.fst)).map cscaSphere ∧
      ([(9:ℚ)/8, 9/8] : List ℚ) =
        ((List.replicate 2 (List.replicate 6 ((⟨1/4, 0⟩ : GComplex), (⟨1/8, 0⟩ : GComplex)))).map
          (fun s => s.map Prod.fst)).map cabsSphere := by
  have h := c6_solve_request_shape wEngine [(-5, 0, 0), (5, 0, 0)] [2, 2]
    [⟨-2, 1⟩, ⟨-2, 1⟩] 0 1 500 0 0 0 1 false
    (List.replicate 2 (List.replicate 6 (⟨1/4, 0⟩, ⟨1/8, 0⟩)),
     [3/2, 3/2], [3/8, 3/8], [9/8, 9/8])
    (by decide)
  simpa using h

/-- C8: the quasi-static selector at the solve boundary is a boolean flag:
with the flag set the Assembler is exactly the uniform assembly built from
the quasi-static translation kernel, with it cleared exactly the uniform
assembly built from the full retarded kernel, and the assemble-and-solve
stage uses the kernel selected by the flag uniformly for every pair. -/
theorem c8_quasistatic_flag_uniform (E : Engines)
    (f_int n_matrix wl alpha beta gamma : ℚ) (m_xyz : List Vec3)
    (v_r : List ℚ) (m_eps : List GComplex) (n_stop : ℕ) (qs_flag : Bool) :
    assembleRows E true f_int n_matrix wl alpha beta gamma m_xyz v_r m_eps
        n_stop =
      assembleRowsWith E E.transQS f_int n_matrix wl alpha beta gamma m_xyz v_r
        m_eps n_stop ∧
    assembleRows E false f_int n_matrix wl alpha beta gamma m_xyz v_r m_eps
        n_stop =
      assembleRowsWith E E.transRet f_int n_matrix wl alpha beta gamma m_xyz v_r
        m_eps n_stop ∧
    solveStage E m_xyz v_r m_eps f_int n_matrix wl alpha beta gamma n_stop
        qs_flag =
      gauss (m_xyz.length * dim1 n_stop)
        (assembleRowsWith E (if qs_flag then E.transQS else E.transRet) f_int
          n_matrix wl alpha beta gamma m_xyz v_r m_eps n_stop) := by
  refine ⟨rfl, rfl, ?_⟩
  cases qs_flag <;> rfl

/-- C7: the far-field request returns a theta-by-phi grid whose entries sit
at the requested observation angles and carry the complex amplitude
components and the (non-negative) intensity derived from them, together
with the accumulated total scattered power of the grid and a non-negative
numerical error estimate for the angular integration. -/
theorem c7_far_field_request (E : Engines) (k : ℚ) (n_stop : ℕ)
    (th_lo th_hi : ℚ) (n_theta : ℕ) (ph_lo ph_hi : ℚ) (n_phi : ℕ) (pol : ℚ)
    (v : List GComplex) (m_xyz : List Vec3) :
    (efar E k n_stop th_lo th_hi n_theta ph_lo ph_hi n_phi pol v m_xyz).1.length
        = n_theta ∧
    (∀ row ∈ (efar E k n_stop th_lo th_hi n_theta ph_lo ph_hi n_phi pol v
        m_xyz).1, row.length = n_phi) ∧
    (∀ it ip : ℕ, it < n_theta → ip < n_phi →
      (((efar E k n_stop th_lo th_hi n_theta ph_lo ph_hi n_phi pol v
          m_xyz).1.getD it []).getD ip ⟨0, 0, 0, 0, 0⟩ =
        farEntryAt E k pol v m_xyz (dim1 n_stop)
          (gridAngle th_lo th_hi n_theta it) (gridAngle ph_lo ph_hi n_phi ip))) ∧
    (∀ row ∈ (efar E k n_stop th_lo th_hi n_theta ph_lo ph_hi n_phi pol v
        m_xyz).1, ∀ en ∈ row,
      en.intensity = GComplex.normSq en.eTheta + GComplex.normSq en.ePhi ∧
        0 ≤ en.intensity) ∧
    (efar E k n_stop th_lo th_hi n_theta ph_lo ph_hi n_phi pol v m_xyz).2.1 =
      totalPower E th_lo th_hi n_theta ph_lo ph_hi n_phi
        (efar E k n_stop th_lo th_hi n_theta ph_lo ph_hi n_phi pol v m_xyz).1 ∧
    0 ≤ (efar E k n_stop th_lo th_hi n_theta ph_lo ph_hi n_phi pol v m_xyz).2.2 := by
  refine ⟨by simp [efar], ?_, ?_, ?_, rfl, abs_nonneg _⟩
  · intro row hrow
    simp only [efar, List.mem_map] at hrow
    obtain ⟨it, hit, rfl⟩ := hrow
    simp
  · intro it ip hit hip
    rw [show (efar E k n_stop th_lo th_hi n_theta ph_lo ph_hi n_phi pol v
        m_xyz).1 = (List.range n_theta).map (fun it =>
          (List.range n_phi).map (fun ip =>
            farEntryAt E k pol v m_xyz (dim1 n_stop)
              (gridAngle th_lo th_hi n_theta it)
              (gridAngle ph_lo ph_hi n_phi ip))) from rfl,
      range_map_getD _ n_theta _ it hit, range_map_getD _ n_phi _ ip hip]
  · intro row hrow en hen
    simp only [efar, List.mem_map] at hrow
    obtain ⟨it, hit, rfl⟩ := hrow
    simp only [List.mem_map] at hen
    obtain ⟨ip, hip, rfl⟩ := hen
    exact ⟨rfl, add_nonneg (GComplex.normSq_nonneg _) (GComplex.normSq_nonneg _)⟩

theorem dotK_zero_row {K : Type} [Field K] [DecidableEq K] {row : List K}
    (h : ∀ a ∈ row, a = 0) (y : List K) : dotK row y = 0 := by
  induction row generalizing y with
  | nil => rfl
  | cons a t ih =>
    cases y with
    | nil => simp
    | cons y0 yt =>
      rw [dotK_cons, h a (List.mem_cons_self a t),
        ih (fun b hb => h b (List.mem_cons_of_mem a hb)) yt]
      ring

theorem dotK_unit_row {K : Type} [Field K] [DecidableEq K] :
    ∀ (n r : ℕ) (y : List K), r < n → y.length = n →
      dotK ((List.range n).map (fun c => if r = c then (1 : K) else 0)) y =
        y.getD r 0 := by
  intro n
  induction n with
  | zero => intro r y hr _; simp at hr
  | succ m ih =>
    intro r y hr hy
    cases y with
    | nil => simp at hy
    | cons y0 yt =>
      rw [List.range_succ_eq_map, List.map_cons, List.map_map]
      cases r with
      | zero =>
        rw [if_pos rfl, dotK_cons, dotK_zero_row, List.getD_cons_zero]
        · ring
        · intro a ha
          simp only [List.mem_map, Function.comp] at ha
          obtain ⟨c, _, rfl⟩ := ha
          simp
      | succ s =>
        rw [if_neg (by omega), dotK_cons, List.getD_cons_succ]
        have hrw : ((List.range m).map ((fun c => if s + 1 = c then (1 : K) else 0)
            ∘ Nat.succ)) = (List.range m).map (fun c => if s = c then (1 : K) else 0) := by
          apply List.map_congr_left
          intro c _
          simp only [Function.comp]
          by_cases hsc : s = c
          · rw [if_pos (by omega), if_pos hsc]
          · rw [if_neg (by omega), if_neg hsc]
        rw [hrw, ih s yt (by omega) (by simpa using hy)]
        ring

theorem getD_enum_self {α : Type} (d : α) (l : List α) :
    (List.range l.length).map (fun i => l.getD i d) = l := by
  apply list_eq_of_getD d
  · simp
  · intro i hi
    simp only [List.length_map, List.length_range] at hi
    rw [range_map_getD d l.length _ i hi]

theorem assemble_single (E : Engines) (qs_flag : Bool)
    (f_int n_matrix wl alpha beta gamma : ℚ) (p0 : Vec3) (r0 : ℚ)
    (e0 : GComplex) (n_stop : ℕ) :
    assembleRows E qs_flag f_int n_matrix wl alpha beta gamma [p0] [r0] [e0]
        n_stop =
      (List.range (dim1 n_stop)).map (fun r =>
        ((List.range (dim1 n_stop)).map (fun c =>
           if r = c then (1 : GComplex) else 0),
         E.mie wl n_matrix r0 e0 r *
           E.incident wl n_matrix alpha beta gamma p0 r)) := by
  simp [assembleRows, show List.range 1 = [0] from rfl, sysEntry, rhsEntry]

theorem solve_single (E : Engines) (p0 : Vec3) (r0 : ℚ) (e0 : GComplex)
    (f_int n_matrix wl alpha beta gamma : ℚ) (n_stop : ℕ) (qs_flag : Bool) :
    solveStage E [p0] [r0] [e0] f_int n_matrix wl alpha beta gamma n_stop
        qs_flag =
      some (mieSingleSolve E wl n_matrix alpha beta gamma p0 r0 e0 n_stop) := by
  rw [solveStage, assemble_single]
  have hd : List.length [p0] * dim1 n_stop = dim1 n_stop := one_mul _
  rw [hd]
  apply gauss_complete
  · constructor
    · simp
    · intro q hq
      simp only [List.mem_map] at hq
      obtain ⟨r, _, rfl⟩ := hq
      simp
  · simp [mieSingleSolve]
  · intro q hq
    simp only [List.mem_map] at hq
    obtain ⟨r, hr, rfl⟩ := hq
    rw [List.mem_range] at hr
    rw [dotK_unit_row (dim1 n_stop) r _ hr (by simp [mieSingleSolve]),
      mieSingleSolve, range_map_getD _ _ _ r hr]
  · intro y hy hsolve
    apply list_eq_of_getD (0 : GComplex)
    · rw [hy]
      simp [mieSingleSolve]
    · intro r hr
      rw [hy] at hr
      have hq := hsolve _ (List.mem_map_of_mem _ (List.mem_range.mpr hr))
      simp only at hq
      rw [dotK_unit_row (dim1 n_stop) r y hr hy] at hq
      rw [hq, mieSingleSolve, range_map_getD _ _ _ r hr]

/-- C2: for every single-sphere input, the assemble-and-solve stage of the
GMM core succeeds and its scattered-field coefficients are exactly the
Single-Sphere Mie Engine's solution for the same sphere and expansion
order (exact equality, hence within any relative tolerance); consequently
any successful full solve returns that Mie solution as its scattered
column. -/
theorem c2_single_sphere_is_mie (E : Engines) (p0 : Vec3) (r0 : ℚ)
    (e0 : GComplex) (f_int n_matrix wl alpha beta gamma : ℚ) (n_stop : ℕ)
    (qs_flag : Bool) :
    solveStage E [p0] [r0] [e0] f_int n_matrix wl alpha beta gamma n_stop
        qs_flag =
      some (mieSingleSolve E wl n_matrix alpha beta gamma p0 r0 e0 n_stop) ∧
    ∀ out, expansion_coefficients E [p0] [r0] [e0] f_int n_matrix wl alpha beta
        gamma n_stop qs_flag = .ok out →
      out.1.map (fun s => s.map Prod.fst) =
        [mieSingleSolve E wl n_matrix alpha beta gamma p0 r0 e0 n_stop] := by
  refine ⟨solve_single E p0 r0 e0 f_int n_matrix wl alpha beta gamma n_stop
    qs_flag, ?_⟩
  intro out hok
  obtain ⟨hdeg, x, hsol, hen, hout⟩ := expansion_ok_inv hok
  rw [solve_single] at hsol
  have hx : x = mieSingleSolve E wl n_matrix alpha beta gamma p0 r0 e0 n_stop :=
    ((Option.some.injEq _ _).mp hsol).symm
  subst hx
  subst hout
  rw [List.map_map]
  have : ∀ i ∈ List.range (List.length [p0]),
      ((fun s => s.map Prod.fst) ∘ (fun i =>
        spherePairList E wl n_matrix (List.getD [r0] i 0)
          (List.getD [e0] i 0)
          (mieSingleSolve E wl n_matrix alpha beta gamma p0 r0 e0 n_stop)
          (dim1 n_stop) i)) i =
      (fun _ => mieSingleSolve E wl n_matrix alpha beta gamma p0 r0 e0 n_stop) i := by
    intro i hi
    have hi0 : i = 0 := by simpa using hi
    subst hi0
    simp only [Function.comp]
    rw [spherePairList_fst]
    rw [sphereSlice]
    have hz : ∀ r ∈ List.range (dim1 n_stop),
        (mieSingleSolve E wl n_matrix alpha beta gamma p0 r0 e0
          n_stop).getD (0 * dim1 n_stop + r) 0 =
        (mieSingleSolve E wl n_matrix alpha beta gamma p0 r0 e0 n_stop).getD r 0 := by
      intro r _
      rw [zero_mul, zero_add]
    rw [List.map_congr_left hz]
    have hlen : dim1 n_stop =
        (mieSingleSolve E wl n_matrix alpha beta gamma p0 r0 e0 n_stop).length := by
      simp [mieSingleSolve]
    rw [hlen, getD_enum_self]
  rw [List.map_congr_left this]
  simp

theorem assemble_cutoff_eq (E : Engines) (qs_flag : Bool)
    (F n_matrix wl alpha beta gamma : ℚ) (m_xyz : List Vec3) (v_r : List ℚ)
    (m_eps : List GComplex) (n_stop : ℕ)
    (hF : ∀ i ∈ List.range m_xyz.length, ∀ j ∈ List.range m_xyz.length,
      i ≠ j →
        sqDist (m_xyz.getD i (0, 0, 0)) (m_xyz.getD j (0, 0, 0)) ≤
          (F * (v_r.getD i 0 + v_r.getD j 0)) ^ 2) :
    assembleRows E qs_flag 0 n_matrix wl alpha beta gamma m_xyz v_r m_eps
        n_stop =
      assembleRows E qs_flag F n_matrix wl alpha beta gamma m_xyz v_r m_eps
        n_stop := by
  rw [assembleRows, assembleRows]
  apply flatMap_congr_left
  intro i hi
  apply List.map_congr_left
  intro r _
  refine congrArg (fun row => (row, rhsEntry E n_matrix wl alpha beta gamma
    m_xyz v_r m_eps i r)) ?_
  apply flatMap_congr_left
  intro j hj
  apply List.map_congr_left
  intro c _
  by_cases hij : i = j
  · simp [sysEntry, hij]
  · have hnc0 : ¬((0:ℚ) < 0 ∧
        ((0:ℚ) * (v_r.getD i 0 + v_r.getD j 0)) ^ 2 <
          sqDist (m_xyz.getD i (0, 0, 0)) (m_xyz.getD j (0, 0, 0))) := by
      simp
    have hncF : ¬(0 < F ∧
        (F * (v_r.getD i 0 + v_r.getD j 0)) ^ 2 <
          sqDist (m_xyz.getD i (0, 0, 0)) (m_xyz.getD j (0, 0, 0))) := by
      rintro ⟨_, hlt⟩
      exact absurd hlt (not_lt.mpr (hF i hi j hj hij))
    rw [sysEntry, sysEntry, if_neg hij, if_neg hij, couplingEntry,
      couplingEntry, if_neg hnc0, if_neg hncF]

/-- C4: running the solve with cutoff zero (full interaction) and with any
cutoff large enough that no sphere pair's center separation exceeds
cutoff times the combined radius produces identical results; and for a
positive cutoff, precisely the pairs whose separation exceeds that bound
get a zero coupling entry while all other pairs keep the full-interaction
entry — an approximation, never an error path. -/
theorem c4_cutoff_policy (E : Engines) (m_xyz : List Vec3) (v_r : List ℚ)
    (m_eps : List GComplex) (F n_matrix wl alpha beta gamma : ℚ)
    (n_stop : ℕ) (qs_flag : Bool)
    (hF : ∀ i ∈ List.range m_xyz.length, ∀ j ∈ List.range m_xyz.length,
      i ≠ j →
        sqDist (m_xyz.getD i (0, 0, 0)) (m_xyz.getD j (0, 0, 0)) ≤
          (F * (v_r.getD i 0 + v_r.getD j 0)) ^ 2) :
    expansion_coefficients E m_xyz v_r m_eps 0 n_matrix wl alpha beta gamma
        n_stop qs_flag =
      expansion_coefficients E m_xyz v_r m_eps F n_matrix wl alpha beta gamma
        n_stop qs_flag ∧
    ∀ f_int : ℚ, 0 < f_int → ∀ i j r c : ℕ, i ≠ j →
      (((f_int * (v_r.getD i 0 + v_r.getD j 0)) ^ 2 <
          sqDist (m_xyz.getD i (0, 0, 0)) (m_xyz.getD j (0, 0, 0)) →
        sysEntry E qs_flag f_int n_matrix wl m_xyz v_r m_eps i j r c = 0) ∧
      (¬ (f_int * (v_r.getD i 0 + v_r.getD j 0)) ^ 2 <
          sqDist (m_xyz.getD i (0, 0, 0)) (m_xyz.getD j (0, 0, 0)) →
        sysEntry E qs_flag f_int n_matrix wl m_xyz v_r m_eps i j r c =
          sysEntry E qs_flag 0 n_matrix wl m_xyz v_r m_eps i j r c)) := by
  constructor
  · rw [expansion_coefficients, expansion_coefficients, solveStage, solveStage,
      assemble_cutoff_eq E qs_flag F n_matrix wl alpha beta gamma m_xyz v_r
        m_eps n_stop hF]
  · intro f_int hf i j r c hij
    constructor
    · intro hdist
      rw [sysEntry, if_neg hij, couplingEntry, if_pos ⟨hf, hdist⟩]
    · intro hdist
      have hnc0 : ¬((0:ℚ) < 0 ∧
          ((0:ℚ) * (v_r.getD i 0 + v_r.getD j 0)) ^ 2 <
            sqDist (m_xyz.getD i (0, 0, 0)) (m_xyz.getD j (0, 0, 0))) := by
        simp
      have hncf : ¬(0 < f_int ∧
          (f_int * (v_r.getD i 0 + v_r.getD j 0)) ^ 2 <
            sqDist (m_xyz.getD i (0, 0, 0)) (m_xyz.getD j (0, 0, 0))) := by
        rintro ⟨_, hlt⟩
        exact hdist hlt
      rw [sysEntry, sysEntry, if_neg hij, if_neg hij, couplingEntry,
        couplingEntry, if_neg hncf, if_neg hnc0]

/-- Closed instance of C4: on a concrete dimer, cutoff 0 and a large cutoff
give identical solves, and excluded pairs of a positive cutoff have zero
entries. -/
theorem c4_cutoff_policy_witness :
    (expansion_coefficients wEngine [(-5, 0, 0), (5, 0, 0)] [2, 2]
        [⟨-2, 1⟩, ⟨-2, 1⟩] 0 1 500 0 0 0 1 false =
      expansion_coefficients wEngine [(-5, 0, 0), (5, 0, 0)] [2, 2]
        [⟨-2, 1⟩, ⟨-2, 1⟩] 100 1 500 0 0 0 1 false) ∧
    ∀ f_int : ℚ, 0 < f_int → ∀ i j r c : ℕ, i ≠ j →
      (((f_int * (List.getD [(2:ℚ), 2] i 0 + List.getD [(2:ℚ), 2] j 0)) ^ 2 <
          sqDist (List.getD [((-5:ℚ), (0:ℚ), (0:ℚ)), (5, 0, 0)] i (0, 0, 0))
            (List.getD [((-5:ℚ), (0:ℚ), (0:ℚ)), (5, 0, 0)] j (0, 0, 0)) →
        sysEntry wEngine false f_int 1 500 [(-5, 0, 0), (5, 0, 0)] [2, 2]
          [⟨-2, 1⟩, ⟨-2, 1⟩] i j r c = 0) ∧
      (¬ (f_int * (List.getD [(2:ℚ), 2] i 0 + List.getD [(2:ℚ), 2] j 0)) ^ 2 <
          sqDist (List.getD [((-5:ℚ), (0:ℚ), (0:ℚ)), (5, 0, 0)] i (0, 0, 0))
            (List.getD [((-5:ℚ), (0:ℚ), (0:ℚ)), (5, 0, 0)] j (0, 0, 0)) →
        sysEntry wEngine false f_int 1 500 [(-5, 0, 0), (5, 0, 0)] [2, 2]
          [⟨-2, 1⟩, ⟨-2, 1⟩] i j r c =
          sysEntry wEngine false 0 1 500 [(-5, 0, 0), (5, 0, 0)] [2, 2]
            [⟨-2, 1⟩, ⟨-2, 1⟩] i j r c)) :=
  c4_cutoff_policy wEngine [(-5, 0, 0), (5, 0, 0)] [2, 2] [⟨-2, 1⟩, ⟨-2, 1⟩]
    100 1 500 0 0 0 1 false (by decide)

theorem swapHalves_length {α : Type} (n : ℕ) (l : List α) :
    (swapHalves n l).length = l.length := by
  simp [swapHalves]
  omega

theorem swapHalves_invol {α : Type} {n : ℕ} {l : List α}
    (h : l.length = n + n) : swapHalves n (swapHalves n l) = l := by
  have h1 : (l.drop n).length = n := by simp [h]
  have hd := List.drop_left (l.drop n) (l.take n)
  rw [h1] at hd
  have ht := List.take_left (l.drop n) (l.take n)
  rw [h1] at ht
  calc swapHalves n (swapHalves n l)
      = (l.drop n ++ l.take n).drop n ++ (l.drop n ++ l.take n).take n := rfl
    _ = l.take n ++ l.drop n := by rw [hd, ht]
    _ = l := List.take_append_drop n l

theorem dotK_swapHalves {K : Type} [Field K] [DecidableEq K] {n : ℕ}
    {u y : List K} (hu : u.length = n + n) (hy : y.length = n + n) :
    dotK (swapHalves n u) (swapHalves n y) = dotK u y := by
  have h1 : (u.drop n).length = (y.drop n).length := by simp [hu, hy]
  have h2 : (u.take n).length = (y.take n).length := by simp [hu, hy]
  rw [swapHalves, swapHalves, dotK_append _ _ h1]
  conv_rhs => rw [← List.take_append_drop n u, ← List.take_append_drop n y]
  rw [dotK_append _ _ h2]
  ring

theorem length_flatMap_range_map {β : Type} (ns d : ℕ) (g : ℕ → ℕ → β) :
    ((List.range ns).flatMap (fun j => (List.range d).map (g j))).length =
      ns * d := by
  rw [List.length_flatMap]
  have h1 : (List.range ns).map (List.length ∘ (fun j =>
      (List.range d).map (g j))) = (List.range ns).map (fun _ => d) := by
    apply List.map_congr_left
    intro j _
    simp [Function.comp]
  rw [h1]
  have h2 : (List.range ns).map (fun _ => d) =
      List.replicate (List.range ns).length d := List.map_const _ d
  rw [h2, List.sum_replicate, List.length_range, smul_eq_mul]

theorem assembleRows_square (E : Engines) (qs_flag : Bool)
    (f_int n_matrix wl alpha beta gamma : ℚ) (m_xyz : List Vec3)
    (v_r : List ℚ) (m_eps : List GComplex) (n_stop : ℕ) :
    SquareSys (m_xyz.length * dim1 n_stop)
      (assembleRows E qs_flag f_int n_matrix wl alpha beta gamma m_xyz v_r
        m_eps n_stop) := by
  constructor
  · exact length_flatMap_range_map m_xyz.length (dim1 n_stop) _
  · intro q hq
    rw [assembleRows, List.mem_flatMap] at hq
    obtain ⟨i, hi, hq2⟩ := hq
    rw [List.mem_map] at hq2
    obtain ⟨r, hr, rfl⟩ := hq2
    exact length_flatMap_range_map m_xyz.length (dim1 n_stop) _

theorem degenerate_pair_iff (a b : Vec3) : degenerateGeometry [a, b] ↔ a = b := by
  constructor
  · rintro ⟨i, hi, j, hj, hij, heq⟩
    rw [List.mem_range] at hi hj
    simp only [List.length_cons, List.length_nil] at hi hj
    interval_cases i <;> interval_cases j <;> simp_all
  · intro h
    exact ⟨0, by simp, 1, by simp, by simp, by simpa using h⟩

theorem assemble_two (E : Engines) (qs_flag : Bool)
    (f_int n_matrix wl alpha beta gamma : ℚ) (qA qB : Vec3) (rA rB : ℚ)
    (eA eB : GComplex) (n_stop : ℕ) :
    assembleRows E qs_flag f_int n_matrix wl alpha beta gamma [qA, qB]
        [rA, rB] [eA, eB] n_stop =
      dimerRowsA E qs_flag f_int n_matrix wl alpha beta gamma qA qB rA rB eA
          (dim1 n_stop) ++
        dimerRowsB E qs_flag f_int n_matrix wl alpha beta gamma qA qB rA rB eB
          (dim1 n_stop) := by
  simp [assembleRows, show List.range 2 = [0, 1] from rfl, sysEntry, rhsEntry,
    dimerRowsA, dimerRowsB, identBlockRow, coupBlockRow]

@[simp] theorem identBlockRow_length (d r : ℕ) : (identBlockRow d r).length = d := by
  simp [identBlockRow]

@[simp] theorem coupBlockRow_length (E : Engines) (qs_flag : Bool)
    (f_int n_matrix wl : ℚ) (qA qB : Vec3) (rA rB : ℚ) (eA : GComplex)
    (d r : ℕ) :
    (coupBlockRow E qs_flag f_int n_matrix wl qA qB rA rB eA d r).length = d := by
  simp [coupBlockRow]

theorem swapHalves_append {α : Type} {d : ℕ} {X Y : List α}
    (h : X.length = d) : swapHalves d (X ++ Y) = Y ++ X := by
  rw [swapHalves, ← h, List.drop_left, List.take_left]

theorem dimer_rows_swap (E : Engines) (qs_flag : Bool)
    (f_int n_matrix wl alpha beta gamma : ℚ) (qA qB : Vec3) (rA rB : ℚ)
    (eA eB : GComplex) (d : ℕ) :
    dimerRowsA E qs_flag f_int n_matrix wl alpha beta gamma qB qA rB rA eB d =
      (dimerRowsB E qs_flag f_int n_matrix wl alpha beta gamma qA qB rA rB eB
        d).map (fun q => (swapHalves d q.1, q.2)) ∧
    dimerRowsB E qs_flag f_int n_matrix wl alpha beta gamma qB qA rB rA eA d =
      (dimerRowsA E qs_flag f_int n_matrix wl alpha beta gamma qA qB rA rB eA
        d).map (fun q => (swapHalves d q.1, q.2)) := by
  constructor
  · rw [dimerRowsA, dimerRowsB, List.map_map]
    apply List.map_congr_left
    intro r _
    simp only [Function.comp]
    rw [swapHalves_append (coupBlockRow_length E qs_flag f_int n_matrix wl qB
      qA rB rA eB d r)]
  · rw [dimerRowsA, dimerRowsB, List.map_map]
    apply List.map_congr_left
    intro r _
    simp only [Function.comp]
    rw [swapHalves_append (identBlockRow_length d r)]

theorem solvesSys_append {K : Type} [Field K] [DecidableEq K]
    {l1 l2 : List (List K × K)} {x : List K} :
    SolvesSys (l1 ++ l2) x ↔ SolvesSys l1 x ∧ SolvesSys l2 x :=
  List.forall_mem_append

theorem solvesSys_map_swap {K : Type} [Field K] [DecidableEq K] {d : ℕ}
    {rows : List (List K × K)} {y : List K}
    (hrows : ∀ q ∈ rows, q.1.length = d + d) (hy : y.length = d + d) :
    SolvesSys (rows.map (fun q => (swapHalves d q.1, q.2))) y ↔
      SolvesSys rows (swapHalves d y) := by
  have hdot : ∀ q ∈ rows, dotK (swapHalves d q.1) y = dotK q.1 (swapHalves d y) := by
    intro q hq
    conv_lhs =>
      rw [show y = swapHalves d (swapHalves d y) from (swapHalves_invol hy).symm]
    exact dotK_swapHalves (hrows q hq) (by rw [swapHalves_length]; exact hy)
  rw [SolvesSys, SolvesSys, List.forall_mem_map]
  exact forall_congr' (fun q => imp_congr_right (fun hq => by rw [hdot q hq]))

theorem expansion_ok_intro {E : Engines} {m_xyz : List Vec3} {v_r : List ℚ}
    {m_eps : List GComplex} {f_int n_matrix wl alpha beta gamma : ℚ}
    {n_stop : ℕ} {qs_flag : Bool} {x : List GComplex}
    (hdeg : ¬ degenerateGeometry m_xyz)
    (hsol : solveStage E m_xyz v_r m_eps f_int n_matrix wl alpha beta gamma
      n_stop qs_flag = some x)
    (hen : energyOk (scatteredCoeffs x m_xyz.length (dim1 n_stop))) :
    expansion_coefficients E m_xyz v_r m_eps f_int n_matrix wl alpha beta gamma
        n_stop qs_flag =
      .ok ((List.range m_xyz.length).map (fun i =>
             spherePairList E wl n_matrix (v_r.getD i 0) (m_eps.getD i 0) x
               (dim1 n_stop) i),
           (scatteredCoeffs x m_xyz.length (dim1 n_stop)).map cextSphere,
           (scatteredCoeffs x m_xyz.length (dim1 n_stop)).map cscaSphere,
           (scatteredCoeffs x m_xyz.length (dim1 n_stop)).map cabsSphere) := by
  rw [expansion_coefficients, if_neg hdeg, hsol]
  simp only [if_pos hen]

theorem sphereSlice_swap_fst {x : List GComplex} {d : ℕ}
    (hx : x.length = d + d) :
    sphereSlice (swapHalves d x) d 0 = sphereSlice x d 1 := by
  rw [sphereSlice, sphereSlice]
  apply List.map_congr_left
  intro r hr
  rw [List.mem_range] at hr
  rw [zero_mul, zero_add, one_mul]
  have hd1 : (x.drop d).length = d := by simp [hx]
  have hlt : r < (x.drop d).length := by rw [hd1]; exact hr
  have hb : d + r < x.length := by omega
  calc (swapHalves d x).getD r 0
      = (x.drop d).getD r 0 := by
        rw [swapHalves, List.getD_append _ _ _ _ hlt]
    _ = (x.drop d)[r] := List.getD_eq_getElem _ _ hlt
    _ = x[d + r] := List.getElem_drop x
    _ = x.getD (d + r) 0 := (List.getD_eq_getElem _ _ hb).symm

theorem sphereSlice_swap_snd {x : List GComplex} {d : ℕ}
    (hx : x.length = d + d) :
    sphereSlice (swapHalves d x) d 1 = sphereSlice x d 0 := by
  rw [sphereSlice, sphereSlice]
  apply List.map_congr_left
  intro r hr
  rw [List.mem_range] at hr
  rw [zero_mul, zero_add, one_mul]
  have hd1 : (x.drop d).length = d := by simp [hx]
  have hge : (x.drop d).length ≤ d + r := by omega
  have hlt3 : r < (x.take d).length := by
    rw [List.length_take]
    omega
  have hb2 : r < x.length := by omega
  calc (swapHalves d x).getD (d + r) 0
      = (x.take d).getD (d + r - (x.drop d).length) 0 := by
        rw [swapHalves, List.getD_append_right _ _ _ _ hge]
    _ = (x.take d).getD r 0 := by rw [hd1, Nat.add_sub_cancel_left]
    _ = (x.take d)[r] := List.getD_eq_getElem _ _ hlt3
    _ = x[r] := List.getElem_take x
    _ = x.getD r 0 := (List.getD_eq_getElem _ _ hb2).symm

/-- C5: for a symmetric dimer of two identical spheres (equal radii and
permittivities, mirror-image positions), exchanging the order of the two
spheres in the target leaves a successful solve successful and leaves the
summed extinction, scattering and absorption cross-sections over both
spheres unchanged. -/
theorem c5_dimer_swap (E : Engines) (p0 : Vec3) (r0 : ℚ) (e0 : GComplex)
    (f_int n_matrix wl alpha beta gamma : ℚ) (n_stop : ℕ) (qs_flag : Bool)
    (out : List (List (GComplex × GComplex)) × List ℚ × List ℚ × List ℚ)
    (hok : expansion_coefficients E [p0, vneg p0] [r0, r0] [e0, e0] f_int
      n_matrix wl alpha beta gamma n_stop qs_flag = .ok out) :
    ∃ out2, expansion_coefficients E [vneg p0, p0] [r0, r0] [e0, e0] f_int
        n_matrix wl alpha beta gamma n_stop qs_flag = .ok out2 ∧
      out2.2.1.sum = out.2.1.sum ∧ out2.2.2.1.sum = out.2.2.1.sum ∧
      out2.2.2.2.sum = out.2.2.2.sum := by
  obtain ⟨hdeg, x, hsol, hen, hout⟩ := expansion_ok_inv hok
  rw [solveStage] at hsol
  have hsq := assembleRows_square E qs_flag f_int n_matrix wl alpha beta gamma
    [p0, vneg p0] [r0, r0] [e0, e0] n_stop
  have hchar := gauss_some_char hsol hsq
  have hxlen2 : x.length = dim1 n_stop + dim1 n_stop := by
    have h1 := hchar.1
    simp at h1
    omega
  have hxsolves : SolvesSys (assembleRows E qs_flag f_int n_matrix wl alpha
      beta gamma [p0, vneg p0] [r0, r0] [e0, e0] n_stop) x :=
    (hchar.2 x hchar.1).mpr rfl
  have hlenA : ∀ q ∈ dimerRowsA E qs_flag f_int n_matrix wl alpha beta gamma
      p0 (vneg p0) r0 r0 e0 (dim1 n_stop),
      q.1.length = dim1 n_stop + dim1 n_stop := by
    intro q hq
    rw [dimerRowsA, List.mem_map] at hq
    obtain ⟨r, _, rfl⟩ := hq
    simp
  have hlenB : ∀ q ∈ dimerRowsB E qs_flag f_int n_matrix wl alpha beta gamma
      p0 (vneg p0) r0 r0 e0 (dim1 n_stop),
      q.1.length = dim1 n_stop + dim1 n_stop := by
    intro q hq
    rw [dimerRowsB, List.mem_map] at hq
    obtain ⟨r, _, rfl⟩ := hq
    simp
  have hiff : ∀ y : List GComplex, y.length = dim1 n_stop + dim1 n_stop →
      (SolvesSys (assembleRows E qs_flag f_int n_matrix wl alpha beta gamma
        [vneg p0, p0] [r0, r0] [e0, e0] n_stop) y ↔
       SolvesSys (assembleRows E qs_flag f_int n_matrix wl alpha beta gamma
        [p0, vneg p0] [r0, r0] [e0, e0] n_stop)
         (swapHalves (dim1 n_stop) y)) := by
    intro y hy
    rw [assemble_two, assemble_two,
      (dimer_rows_swap E qs_flag f_int n_matrix wl alpha beta gamma p0
        (vneg p0) r0 r0 e0 e0 (dim1 n_stop)).1,
      (dimer_rows_swap E qs_flag f_int n_matrix wl alpha beta gamma p0
        (vneg p0) r0 r0 e0 e0 (dim1 n_stop)).2,
      solvesSys_append, solvesSys_append,
      solvesSys_map_swap hlenB hy, solvesSys_map_swap hlenA hy]
    exact and_comm
  have hxswap_len : (swapHalves (dim1 n_stop) x).length =
      dim1 n_stop + dim1 n_stop := by
    rw [swapHalves_length]
    exact hxlen2
  have hxS_solves : SolvesSys (assembleRows E qs_flag f_int n_matrix wl alpha
      beta gamma [vneg p0, p0] [r0, r0] [e0, e0] n_stop)
      (swapHalves (dim1 n_stop) x) := by
    rw [hiff _ hxswap_len, swapHalves_invol hxlen2]
    exact hxsolves
  have huniqS : ∀ y : List GComplex,
      y.length = List.length [vneg p0, p0] * dim1 n_stop →
      SolvesSys (assembleRows E qs_flag f_int n_matrix wl alpha beta gamma
        [vneg p0, p0] [r0, r0] [e0, e0] n_stop) y →
      y = swapHalves (dim1 n_stop) x := by
    intro y hy hsolvY
    have hy2 : y.length = dim1 n_stop + dim1 n_stop := by
      simp at hy
      omega
    have h1 := (hiff y hy2).mp hsolvY
    have h2 : swapHalves (dim1 n_stop) y = x :=
      (hchar.2 _ (by rw [swapHalves_length]; simpa using hy)).mp h1
    rw [← swapHalves_invol hy2, h2]
  have hsqS := assembleRows_square E qs_flag f_int n_matrix wl alpha beta gamma
    [vneg p0, p0] [r0, r0] [e0, e0] n_stop
  have hgaussS := gauss_complete hsqS (swapHalves (dim1 n_stop) x)
    (by rw [swapHalves_length]; simpa using hchar.1) hxS_solves huniqS
  have hsolS : solveStage E [vneg p0, p0] [r0, r0] [e0, e0] f_int n_matrix wl
      alpha beta gamma n_stop qs_flag = some (swapHalves (dim1 n_stop) x) := by
    rw [solveStage]
    exact hgaussS
  have hs0 := sphereSlice_swap_fst hxlen2
  have hs1 := sphereSlice_swap_snd hxlen2
  have hscatO : scatteredCoeffs x (List.length [p0, vneg p0]) (dim1 n_stop) =
      [sphereSlice x (dim1 n_stop) 0, sphereSlice x (dim1 n_stop) 1] := rfl
  have hscatS : scatteredCoeffs (swapHalves (dim1 n_stop) x)
      (List.length [vneg p0, p0]) (dim1 n_stop) =
      [sphereSlice x (dim1 n_stop) 1, sphereSlice x (dim1 n_stop) 0] := by
    rw [show scatteredCoeffs (swapHalves (dim1 n_stop) x)
        (List.length [vneg p0, p0]) (dim1 n_stop) =
        [sphereSlice (swapHalves (dim1 n_stop) x) (dim1 n_stop) 0,
         sphereSlice (swapHalves (dim1 n_stop) x) (dim1 n_stop) 1] from rfl,
      hs0, hs1]
  have henS : energyOk (scatteredCoeffs (swapHalves (dim1 n_stop) x)
      (List.length [vneg p0, p0]) (dim1 n_stop)) := by
    rw [hscatS]
    rw [hscatO] at hen
    intro s hs
    simp only [List.mem_cons, List.not_mem_nil, or_false] at hs
    rcases hs with rfl | rfl
    · exact hen _ (by simp)
    · exact hen _ (by simp)
  have hdegS : ¬ degenerateGeometry [vneg p0, p0] := by
    rw [degenerate_pair_iff]
    intro h
    exact hdeg ((degenerate_pair_iff p0 (vneg p0)).mpr h.symm)
  have hrun := expansion_ok_intro hdegS hsolS henS
  subst hout
  refine ⟨_, hrun, ?_, ?_, ?_⟩ <;>
    dsimp only <;>
    rw [hscatS, hscatO] <;>
    simp [cabsSphere] <;>
    ring

/-- Closed instance of C5: swapping a concrete symmetric dimer preserves
the summed cross-sections of a successful solve. -/
theorem c5_dimer_swap_witness :
    ∃ out2, expansion_coefficients wEngine [vneg (-5, 0, 0), (-5, 0, 0)]
        [2, 2] [⟨-2, 1⟩, ⟨-2, 1⟩] 0 1 500 0 0 0 1 false = .ok out2 ∧
      out2.2.1.sum =
        (List.replicate 2 (List.replicate 6
            ((⟨1/4, 0⟩ : GComplex), (⟨1/8, 0⟩ : GComplex))),
          ([(3:ℚ)/2, 3/2] : List ℚ), ([(3:ℚ)/8, 3/8] : List ℚ),
          ([(9:ℚ)/8, 9/8] : List ℚ)).2.1.sum ∧
      out2.2.2.1.sum =
        (List.replicate 2 (List.replicate 6
            ((⟨1/4, 0⟩ : GComplex), (⟨1/8, 0⟩ : GComplex))),
          ([(3:ℚ)/2, 3/2] : List ℚ), ([(3:ℚ)/8, 3/8] : List ℚ),
          ([(9:ℚ)/8, 9/8] : List ℚ)).2.2.1.sum ∧
      out2.2.2.2.sum =
        (List.replicate 2 (List.replicate 6
            ((⟨1/4, 0⟩ : GComplex), (⟨1/8, 0⟩ : GComplex))),
          ([(3:ℚ)/2, 3/2] : List ℚ), ([(3:ℚ)/8, 3/8] : List ℚ),
          ([(9:ℚ)/8, 9/8] : List ℚ)).2.2.2.sum :=
  c5_dimer_swap wEngine (-5, 0, 0) 2 ⟨-2, 1⟩ 0 1 500 0 0 0 1 false
    (List.replicate 2 (List.replicate 6 (⟨1/4, 0⟩, ⟨1/8, 0⟩)),
     [3/2, 3/2], [3/8, 3/8], [9/8, 9/8])
    (by decide)

/-- C10: on every successful solve, the first returned component is the
two-column coefficient array whose column 0 holds the scattered-field
(amn, bmn) coefficients and whose column 1 holds the internal-field
(dmn, cmn) coefficients derived from column 0 by the internal-field
kernel; the notebook's far-field job passes exactly column 0 to efar, and
its result is unchanged under any change of the internal-field kernel. -/
theorem c10_two_column_output (E E2 : Engines)
    (hmie : E2.mie = E.mie) (htr : E2.transRet = E.transRet)
    (htq : E2.transQS = E.transQS) (hinc : E2.incident = E.incident)
    (hvt : E2.vshTheta = E.vshTheta) (hvp : E2.vshPhi = E.vshPhi)
    (hfp : E2.farPhase = E.farPhase) (hqw : E2.quadW = E.quadW)
    (m_xyz : List Vec3) (v_r : List ℚ) (m_eps : List GComplex)
    (f_int n_matrix wl alpha beta gamma : ℚ) (n_stop : ℕ) (qs_flag : Bool)
    (k th_lo th_hi : ℚ) (n_theta : ℕ) (ph_lo ph_hi : ℚ) (n_phi : ℕ) (pol : ℚ)
    (out : List (List (GComplex × GComplex)) × List ℚ × List ℚ × List ℚ)
    (hok : expansion_coefficients E m_xyz v_r m_eps f_int n_matrix wl alpha beta
      gamma n_stop qs_flag = .ok out) :
    (∀ i : ℕ, i < out.1.length →
      out.1.getD i [] = (List.range (dim1 n_stop)).map (fun r =>
        (((out.1.getD i []).map Prod.fst).getD r 0,
         E.internalRatio wl n_matrix (v_r.getD i 0) (m_eps.getD i 0) r *
           ((out.1.getD i []).map Prod.fst).getD r 0))) ∧
    farFieldJob E m_xyz v_r m_eps f_int n_matrix wl alpha beta gamma n_stop
        qs_flag k th_lo th_hi n_theta ph_lo ph_hi n_phi pol =
      .ok (efar E k n_stop th_lo th_hi n_theta ph_lo ph_hi n_phi pol
        ((out.1.map (fun s => s.map Prod.fst)).flatten) m_xyz) ∧
    farFieldJob E2 m_xyz v_r m_eps f_int n_matrix wl alpha beta gamma n_stop
        qs_flag k th_lo th_hi n_theta ph_lo ph_hi n_phi pol =
      farFieldJob E m_xyz v_r m_eps f_int n_matrix wl alpha beta gamma n_stop
        qs_flag k th_lo th_hi n_theta ph_lo ph_hi n_phi pol := by
  refine ⟨?_, ?_, ?_⟩
  · obtain ⟨hdeg, x, hsol, hen, hout⟩ := expansion_ok_inv hok
    subst hout
    intro i hi
    simp only [List.length_map, List.length_range] at hi
    rw [range_map_getD ([] : List (GComplex × GComplex)) _ _ i hi,
      spherePairList_fst]
    rw [spherePairList]
    apply List.map_congr_left
    intro r hr
    rw [List.mem_range] at hr
    have hsl : (sphereSlice x (dim1 n_stop) i).getD r 0 =
        x.getD (i * dim1 n_stop + r) 0 := by
      rw [sphereSlice, range_map_getD _ _ _ r hr]
    rw [hsl]
  · rw [farFieldJob, hok]
    rfl
  · obtain ⟨m1, t1, q1, i1, ir1, vt1, vp1, fp1, qw1⟩ := E
    obtain ⟨m2, t2, q2, i2, ir2, vt2, vp2, fp2, qw2⟩ := E2
    replace hmie : m2 = m1 := hmie
    replace htr : t2 = t1 := htr
    replace htq : q2 = q1 := htq
    replace hinc : i2 = i1 := hinc
    replace hvt : vt2 = vt1 := hvt
    replace hvp : vp2 = vp1 := hvp
    replace hfp : fp2 = fp1 := hfp
    replace hqw : qw2 = qw1 := hqw
    subst hmie htr htq hinc hvt hvp hfp hqw
    rw [farFieldJob, farFieldJob, expansion_coefficients, expansion_coefficients]
    by_cases hdeg : degenerateGeometry m_xyz
    · rw [if_pos hdeg, if_pos hdeg]
      rfl
    · rw [if_neg hdeg, if_neg hdeg]
      have hsolve : solveStage ⟨m2, t2, q2, i2, ir2, vt2, vp2, fp2, qw2⟩ m_xyz
          v_r m_eps f_int n_matrix wl alpha beta gamma n_stop qs_flag =
          solveStage ⟨m2, t2, q2, i2, ir1, vt2, vp2, fp2, qw2⟩ m_xyz v_r m_eps
            f_int n_matrix wl alpha beta gamma n_stop qs_flag := rfl
      rw [hsolve]
      cases hsol : solveStage ⟨m2, t2, q2, i2, ir1, vt2, vp2, fp2, qw2⟩ m_xyz
          v_r m_eps f_int n_matrix wl alpha beta gamma n_stop qs_flag with
      | none => rfl
      | some x =>
        by_cases hen : energyOk (scatteredCoeffs x m_xyz.length (dim1 n_stop))
        · simp only [if_pos hen, Except.map]
          congr 1
          have hcol : ∀ ir : ℚ → ℚ → ℚ → GComplex → ℕ → GComplex,
              (((List.range m_xyz.length).map (fun i =>
                spherePairList ⟨m2, t2, q2, i2, ir, vt2, vp2, fp2, qw2⟩ wl
                  n_matrix (v_r.getD i 0) (m_eps.getD i 0) x (dim1 n_stop)
                  i)).map (fun s => s.map Prod.fst)) =
              (List.range m_xyz.length).map (fun i =>
                sphereSlice x (dim1 n_stop) i) := by
            intro ir
            rw [List.map_map]
            apply List.map_congr_left
            intro i _
            exact spherePairList_fst _ wl n_matrix (v_r.getD i 0)
              (m_eps.getD i 0) x (dim1 n_stop) i
          rw [hcol ir2, hcol ir1]
          rfl
        · simp only [if_neg hen, Except.map]

/-- Closed instance of C10: replacing the internal-field kernel leaves the
far-field job of a concrete solve unchanged. -/
theorem c10_two_column_output_witness :
    farFieldJob wEngine2 [(-5, 0, 0), (5, 0, 0)] [2, 2] [⟨-2, 1⟩, ⟨-2, 1⟩]
        0 1 500 0 0 0 1 false 1 0 180 2 0 360 1 0 =
      farFieldJob wEngine [(-5, 0, 0), (5, 0, 0)] [2, 2] [⟨-2, 1⟩, ⟨-2, 1⟩]
        0 1 500 0 0 0 1 false 1 0 180 2 0 360 1 0 :=
  (c10_two_column_output wEngine wEngine2 rfl rfl rfl rfl rfl rfl rfl rfl
    [(-5, 0, 0), (5, 0, 0)] [2, 2] [⟨-2, 1⟩, ⟨-2, 1⟩] 0 1 500 0 0 0 1 false
    1 0 180 2 0 360 1 0
    (List.replicate 2 (List.replicate 6 (⟨1/4, 0⟩, ⟨1/8, 0⟩)),
     [3/2, 3/2], [3/8, 3/8], [9/8, 9/8])
    (by decide)).2.2

end PyGmm
